import Mathlib

/-!
Verification of the core text-processing logic of the `qoder-github-mcp-server`
repository: the diff compressor and file-list compressor
(`pkg/qoder/diff_compressor.go`), the diff line annotator (`pkg/qoder/tools.go`)
and the suggestion-indentation reconciler (`indent.go`).

Modelling conventions:
* Go strings are modelled as Lean `String` (a structure holding `List Char`);
  Go's byte-level `len`/indexing is modelled at the character level, which
  agrees with the source for the ASCII data all of these functions manipulate.
* `strings.Split`, `strings.Join`, `strings.Fields`, `strings.TrimSpace`,
  `strings.HasPrefix`, `strings.TrimPrefix`, `filepath.Ext`, `filepath.Base`
  are given explicit executable models below with the same semantics.
* Environment-variable configuration (`PR_DIFF_MAX_WORDS`,
  `PR_DIFF_MAX_FILE_WORDS`) is modelled by the integer fields that
  `NewDiffCompressor` / `NewFileListCompressor` store in the compressor values.
* Go's `sort.Slice` (an unstable sort) is modelled by insertion sort with the
  same comparator, a deterministic refinement of its unspecified tie order.
* The only I/O performed inside the modelled functions (fetching the target
  line's indentation in `adjustSuggestionIndentation`) is passed in as an
  explicit argument, as the spec's interface section prescribes.
-/

set_option maxHeartbeats 1000000

namespace Qoder

/-! ## Definitions: executable models of the source functions -/

/-- ASCII fragment of Go's `unicode.IsSpace`, used by `strings.Fields` and
`strings.TrimSpace`. -/
def goIsSpace (c : Char) : Bool :=
  c = ' ' || c = '\t' || c = '\n' || c = '\u000B' || c = '\u000C' || c = '\r'

/-- Split a character list at every character satisfying `p`; the separators are
dropped and empty chunks are kept (the semantics of Go's `strings.Split` family,
stated on `List Char`). -/
def splitP (p : Char → Bool) : List Char → List (List Char)
  | [] => [[]]
  | a :: t =>
    match splitP p t with
    | [] => [[]]
    | h :: r => if p a then [] :: h :: r else (a :: h) :: r

/-- Split at every occurrence of one character (Go `strings.Split(s, c)`). -/
def splitCh (c : Char) : List Char → List (List Char)
  | [] => [[]]
  | a :: t =>
    match splitCh c t with
    | [] => [[]]
    | h :: r => if a = c then [] :: h :: r else (a :: h) :: r

/-- Interleave one separator character between chunks (Go `strings.Join`). -/
def joinCh (c : Char) : List (List Char) → List Char
  | [] => []
  | h :: t =>
    match t with
    | [] => h
    | _ :: _ => h ++ c :: joinCh c t

/-- Go `strings.Split(s, "\n")`. -/
def splitLines (s : String) : List String := (splitCh '\n' s.data).map String.mk

/-- Go `strings.Join(parts, "\n")`. -/
def joinLines (L : List String) : String := String.mk (joinCh '\n' (L.map String.data))

/-- Go `strings.Fields`: the maximal runs of non-whitespace characters. -/
def goFields (s : String) : List String :=
  ((splitP goIsSpace s.data).filter (fun l => !l.isEmpty)).map String.mk

/-- Model of `countWords` as used by both compressors: `len(strings.Fields(content))`. -/
def countWordsStr (s : String) : Nat := (goFields s).length

/-- Go `strings.HasPrefix`. -/
def startsWithStr (s pre : String) : Bool := pre.data.isPrefixOf s.data

/-- Go `strings.TrimPrefix`. -/
def trimPfx (s pre : String) : String :=
  if pre.data.isPrefixOf s.data then String.mk (s.data.drop pre.data.length) else s

/-- Go `strings.TrimSpace` (ASCII whitespace). -/
def trimSpaceGo (s : String) : String :=
  String.mk (((s.data.dropWhile goIsSpace).reverse.dropWhile goIsSpace).reverse)

/-- Model of `getIndentation` from indent.go: the leading run of spaces and tabs
(`line[:len(line)-len(strings.TrimLeft(line, " \t"))]`). -/
def getIndentation (line : String) : String :=
  String.mk (line.data.takeWhile (fun c => c = ' ' || c = '\t'))

/-- ASCII `strings.ToLower`. -/
def toLowerStr (s : String) : String :=
  String.mk (s.data.map (fun c =>
    if 'A' ≤ c ∧ c ≤ 'Z' then Char.ofNat (c.toNat + 32) else c))

/-- Go `path/filepath.Ext`: the suffix of the final path element starting at its
final dot; empty when the final element has no dot. -/
def filepathExt (path : String) : String :=
  let seg := path.data.reverse.takeWhile (fun c => !(c = '/'))
  if '.' ∈ seg then
    String.mk ('.' :: (seg.takeWhile (fun c => !(c = '.'))).reverse)
  else ""

/-- Go `path/filepath.Base` (Unix separators). -/
def filepathBase (path : String) : String :=
  if path = "" then "." else
  let l := path.data.reverse.dropWhile (fun c => c = '/')
  if l = [] then "/" else String.mk ((l.takeWhile (fun c => !(c = '/'))).reverse)

/-- Index of the first occurrence of `pat` in `s` (Go `strings.Index`),
`none` when absent. -/
def listIndexOf : List Char → List Char → Option Nat
  | s, pat =>
    if pat.isPrefixOf s then some 0
    else
      match s with
      | [] => none
      | _ :: t => (listIndexOf t pat).map (· + 1)

def strIndexOf (s pat : String) : Option Nat := listIndexOf s.data pat.data

/-- Go slice `s[i:]` (character level). -/
def strDropN (s : String) (i : Nat) : String := String.mk (s.data.drop i)

/-- Go slice `s[i:j]` (character level). -/
def strSlice (s : String) (i j : Nat) : String :=
  String.mk ((s.data.take j).drop i)

def strLen (s : String) : Nat := s.data.length

/-- Go `strings.Replace(s, old, new, 1)`: replace the first occurrence. -/
def replaceFirst (s old new : String) : String :=
  match strIndexOf s old with
  | none => s
  | some i => String.mk (s.data.take i ++ new.data ++ s.data.drop (i + old.data.length))

/-- Decimal digits of a natural number, fuel-driven. -/
def natToStrAux : Nat → Nat → List Char
  | 0, _ => []
  | fuel + 1, n =>
    if n < 10 then [Char.ofNat (48 + n)]
    else natToStrAux fuel (n / 10) ++ [Char.ofNat (48 + n % 10)]

/-- Decimal rendering of a `Nat` (the `%d` verb of `fmt.Sprintf`). -/
def natToStr (n : Nat) : String := String.mk (natToStrAux (n + 1) n)

/-- Decimal rendering of an `Int` (the `%d` verb of `fmt.Sprintf`). -/
def intToStr : Int → String
  | Int.ofNat n => natToStr n
  | Int.negSucc n => "-" ++ natToStr (n + 1)

/-- Go `strconv.Atoi`: optional sign followed by at least one decimal digit
(integer overflow is not modelled). -/
def digitsVal : List Char → Option Nat
  | [] => none
  | l =>
    if l.all Char.isDigit then
      some (l.foldl (fun a c => a * 10 + (c.toNat - 48)) 0)
    else none

def goAtoi (s : String) : Option Int :=
  match s.data with
  | '-' :: rest => (digitsVal rest).map (fun n => -(n : Int))
  | '+' :: rest => (digitsVal rest).map (fun n => (n : Int))
  | l => (digitsVal l).map (fun n => (n : Int))

/-- Go `strings.Contains(s, ",")` specialised to one character. -/
def containsCh (s : String) (c : Char) : Bool := s.data.contains c

/-- Go `strings.Trim(s, cutset)` for a cutset given as a character predicate:
strip leading and trailing characters that satisfy it. -/
def trimCutset (s : String) (p : Char → Bool) : String :=
  String.mk (((s.data.dropWhile p).reverse.dropWhile p).reverse)

/-- Loop body of `detectBaseIndentation`: skip blank lines, return the
indentation of the first non-blank line. -/
def detectBaseAux : List String → String
  | [] => ""
  | line :: rest =>
    if trimSpaceGo line = "" then detectBaseAux rest else getIndentation line

/-- Model of `detectBaseIndentation` from indent.go. -/
def detectBaseIndentation (codeBlock : String) : String :=
  detectBaseAux (splitLines codeBlock)

/-- Model of `removeBaseIndentation` from indent.go: blank lines become empty, other
lines have `baseIndentation` stripped via `strings.TrimPrefix`. -/
def removeBaseIndentation (codeBlock baseIndentation : String) : String :=
  joinLines ((splitLines codeBlock).map (fun line =>
    if trimSpaceGo line = "" then "" else trimPfx line baseIndentation))

/-- Model of `applyBaseIndentation` from indent.go: blank lines become empty, other
lines get `targetIndentation` prepended. -/
def applyBaseIndentation (codeBlock targetIndentation : String) : String :=
  joinLines ((splitLines codeBlock).map (fun line =>
    if trimSpaceGo line = "" then "" else targetIndentation ++ line))

def suggestionStart : String := "```suggestion"

def suggestionEnd : String := "```"

/-- Model of `extractSuggestionBlock` from indent.go. -/
def extractSuggestionBlock (body : String) : Except String String :=
  match strIndexOf body suggestionStart with
  | none => Except.error "no suggestion block found"
  | some startIndex0 =>
    let s1 := startIndex0 + strLen suggestionStart
    let startIndex := if s1 < strLen body ∧ body.data.getD s1 ' ' = '\n' then s1 + 1 else s1
    match strIndexOf (strDropN body startIndex) suggestionEnd with
    | none => Except.error "suggestion block not properly terminated"
    | some endIndex =>
      let actualEndIndex := startIndex + endIndex
      if strLen body < actualEndIndex then
        Except.error "suggestion block end index out of bounds"
      else Except.ok (strSlice body startIndex actualEndIndex)

/-- Model of `getFullSuggestionBlock` from indent.go. -/
def getFullSuggestionBlock (body : String) : Except String String :=
  match strIndexOf body suggestionStart with
  | none => Except.error "no suggestion block found"
  | some startIndex =>
    let searchStart := startIndex + strLen suggestionStart
    match strIndexOf (strDropN body searchStart) suggestionEnd with
    | none => Except.error "suggestion block not properly terminated"
    | some endIndex =>
      let actualEndIndex := searchStart + endIndex + strLen suggestionEnd
      if strLen body < actualEndIndex then
        Except.error "suggestion block end index out of bounds"
      else Except.ok (strSlice body startIndex actualEndIndex)

/-- Model of `adjustSuggestionIndentation` from indent.go. The one external call of the
source (`getOriginalCodeIndentation`, which fetches the target line from GitHub
and takes its `getIndentation`) is abstracted into the explicitly supplied
`correctIndentation` argument, as §6 of the spec prescribes for collaborators. -/
def adjustSuggestionIndentation (correctIndentation body : String) :
    Except String String :=
  match extractSuggestionBlock body with
  | Except.error _ => Except.ok body
  | Except.ok suggestion0 =>
    let suggestion := trimSpaceGo suggestion0
    if suggestion = "" then Except.ok body
    else
      let baseIndentation := detectBaseIndentation suggestion
      if baseIndentation = "" then Except.ok body
      else
        let unindentedSuggestion := removeBaseIndentation suggestion baseIndentation
        let adjustedSuggestion := applyBaseIndentation unindentedSuggestion correctIndentation
        match getFullSuggestionBlock body with
        | Except.error _ => Except.ok body
        | Except.ok originalSuggestionBlock =>
          Except.ok (replaceFirst body originalSuggestionBlock
            (suggestionStart ++ "\n" ++ adjustedSuggestion ++ "\n" ++ suggestionEnd))

/-- Go `strings.Contains`. -/
def containsStr (s sub : String) : Bool := (strIndexOf s sub).isSome

/-- Model of `DiffFile` from diff_compressor.go. -/
structure DiffFile where
  Path : String
  Content : String
  WordCount : Nat
  IsSourceCode : Bool
  HasOnlyDeletions : Bool
deriving DecidableEq, Repr

/-- Model of `DiffCompressor`: the two budgets `NewDiffCompressor` reads from
`PR_DIFF_MAX_WORDS` / `PR_DIFF_MAX_FILE_WORDS` (positive, defaults 50000/5000). -/
structure DiffCompressor where
  maxWords : Nat
  maxFileWords : Nat
deriving DecidableEq, Repr

/-- Model of `extractPathFromDiffLine` from diff_compressor.go. -/
def extractPathFromDiffLine (line : String) : String :=
  if !(startsWithStr line "diff --git") then ""
  else
    match goFields line with
    | _ :: _ :: path :: _ =>
      if startsWithStr path "a/" then strDropN path 2 else path
    | _ => ""

/-- The lock-file deny-list of the diff compressor's `isSourceCodeFile`. -/
def dcExcludedFiles : List String :=
  ["package-lock.json", "yarn.lock", "pnpm-lock.yaml", "go.sum",
   "Gemfile.lock", "Cargo.lock", "composer.lock", "poetry.lock"]

/-- The source-extension allow-list of the diff compressor's `isSourceCodeFile`. -/
def dcSourceExts : List String :=
  [".go", ".py", ".js", ".jsx", ".ts", ".tsx", ".java", ".c", ".cpp", ".cc",
   ".h", ".hpp", ".cs", ".rb", ".php", ".swift", ".kt", ".rs", ".scala",
   ".sh", ".bash", ".zsh", ".fish", ".ps1", ".r", ".m", ".mm", ".sql",
   ".html", ".css", ".scss", ".sass", ".less", ".vue", ".svelte"]

/-- The config-file allow-list of the diff compressor's `isSourceCodeFile`. -/
def dcConfigFiles : List String :=
  [".yml", ".yaml", ".json", ".xml", ".toml", ".ini", ".cfg", ".conf",
   ".properties", ".env", "Dockerfile", "Makefile", ".gitignore"]

/-- Model of `(*DiffCompressor).isSourceCodeFile` from diff_compressor.go. -/
def dcIsSourceCodeFile (path : String) : Bool :=
  let ext := toLowerStr (filepathExt path)
  let base := filepathBase path
  if dcExcludedFiles.contains base then false
  else if dcSourceExts.contains ext then true
  else if dcConfigFiles.contains ext || dcConfigFiles.contains base then true
  else if ext = "" &&
      (base = "Makefile" || base = "Dockerfile" || base = "Jenkinsfile" ||
        base = "Rakefile") then true
  else if containsStr (toLowerStr path) "readme" then true
  else false

/-- Loop body of `hasOnlyDeletions`; the pair carries
`(hasAdditions, hasDeletions)`. -/
def hodStep (flags : Bool × Bool) (line : String) : Bool × Bool :=
  if strLen line = 0 then flags
  else
    let f1 :=
      if startsWithStr line "+" && !(startsWithStr line "+++") then (true, flags.2)
      else if startsWithStr line "-" && !(startsWithStr line "---") then (flags.1, true)
      else flags
    if 4 < strLen line then
      if trimSpaceGo line ≠ "" then
        let parts := goFields line
        if 2 ≤ parts.length then
          if startsWithStr (parts.getD 1 "") "+" then (true, f1.2) else f1
        else
          if parts.length = 1 && startsWithStr (parts.getD 0 "") "-" then (f1.1, true)
          else f1
      else f1
    else f1

/-- Model of `(*DiffCompressor).hasOnlyDeletions` from diff_compressor.go. -/
def hasOnlyDeletions (content : String) : Bool :=
  let flags := (splitLines content).foldl hodStep (false, false)
  flags.2 && !flags.1

/-- Building one `DiffFile` from its accumulated lines, exactly as the flush
steps of `parseDiffIntoFiles` do. -/
def mkDiffFile (path : String) (contentLines : List String) : DiffFile :=
  let content := joinLines contentLines
  { Path := path
    Content := content
    WordCount := countWordsStr content
    IsSourceCode := dcIsSourceCodeFile path
    HasOnlyDeletions := hasOnlyDeletions content }

/-- The scanning loop of `parseDiffIntoFiles`; the option carries the current
file's path and accumulated lines. -/
def parseAux : Option (String × List String) → List String → List DiffFile
  | cur, [] =>
    match cur with
    | none => []
    | some (p, acc) => [mkDiffFile p acc]
  | cur, line :: rest =>
    if startsWithStr line "diff --git" then
      match cur with
      | none => parseAux (some (extractPathFromDiffLine line, [line])) rest
      | some (p, acc) =>
        mkDiffFile p acc :: parseAux (some (extractPathFromDiffLine line, [line])) rest
    else
      match cur with
      | none => parseAux none rest
      | some (p, acc) => parseAux (some (p, acc ++ [line])) rest

/-- Model of `(*DiffCompressor).parseDiffIntoFiles` from diff_compressor.go. -/
def parseDiffIntoFiles (rawDiff : String) : List DiffFile :=
  parseAux none (splitLines rawDiff)

/-- Model of `(*DiffCompressor).getTotalWords`. -/
def getTotalWords (files : List DiffFile) : Nat :=
  (files.map DiffFile.WordCount).sum

/-- Model of `(*DiffCompressor).hasOversizedFiles`. -/
def hasOversizedFiles (c : DiffCompressor) (files : List DiffFile) : Bool :=
  files.any (fun f => c.maxFileWords < f.WordCount)

/-- Model of `(*DiffCompressor).isWithinLimits`. -/
def isWithinLimits (c : DiffCompressor) (files : List DiffFile) : Bool :=
  decide (getTotalWords files ≤ c.maxWords) &&
    files.all (fun f => decide (f.WordCount ≤ c.maxFileWords))

/-- Model of `(*DiffCompressor).filterSourceCodeFiles`. -/
def filterSourceCodeFiles (files : List DiffFile) : List DiffFile :=
  files.filter (fun f => f.IsSourceCode)

/-- Model of `(*DiffCompressor).filterLargeFiles`. -/
def filterLargeFiles (c : DiffCompressor) (files : List DiffFile) : List DiffFile :=
  files.filter (fun f => decide (f.WordCount ≤ c.maxFileWords))

/-- Model of `(*DiffCompressor).filterDeletionOnlyFiles`. -/
def filterDeletionOnlyFiles (files : List DiffFile) : List DiffFile :=
  files.filter (fun f => !f.HasOnlyDeletions)

/-- Model of `(*DiffCompressor).trimToMaxWords`: sort descending by word count
(`sort.Slice`, modelled as insertion sort with the same comparator), then walk
from the smallest file upward keeping a file whenever it still fits. -/
def trimToMaxWords (c : DiffCompressor) (files : List DiffFile) : List DiffFile :=
  let totalWords := getTotalWords files
  if totalWords ≤ c.maxWords then files
  else
    let sorted := List.insertionSort (fun a b => b.WordCount ≤ a.WordCount) files
    (sorted.reverse.foldl
      (fun acc f =>
        if acc.2 + f.WordCount ≤ c.maxWords then (acc.1 ++ [f], acc.2 + f.WordCount)
        else acc)
      (([] : List DiffFile), 0)).1

/-- Model of `(*DiffCompressor).reconstructDiff`. -/
def reconstructDiff (files : List DiffFile) : String :=
  if files = [] then "" else joinLines (files.map DiffFile.Content)

/-- Model of `(*DiffCompressor).CompressDiff` from diff_compressor.go (its `error`
result is constantly nil in the source and omitted). -/
def CompressDiff (c : DiffCompressor) (rawDiff : String) : String :=
  let files0 := parseDiffIntoFiles rawDiff
  if getTotalWords files0 ≤ c.maxWords ∧ hasOversizedFiles c files0 = false then
    rawDiff
  else
    let files1 := filterSourceCodeFiles files0
    if isWithinLimits c files1 then reconstructDiff files1
    else
      let files2 := filterLargeFiles c files1
      if isWithinLimits c files2 then reconstructDiff files2
      else
        let files3 := filterDeletionOnlyFiles files2
        if isWithinLimits c files3 then reconstructDiff files3
        else reconstructDiff (trimToMaxWords c files3)

/-- A `DiffFile` is well-formed when it is exactly what a flush of
`parseDiffIntoFiles` produces: its content is a nonempty block of
newline-free lines whose first line is a `diff --git` marker and whose
remaining lines are not. -/
def WFfile (f : DiffFile) : Prop :=
  ∃ lines : List String, lines ≠ [] ∧
    (∀ l ∈ lines, '\n' ∉ l.data) ∧
    startsWithStr (lines.headD "") "diff --git" = true ∧
    (∀ l ∈ lines.tail, startsWithStr l "diff --git" = false) ∧
    f = mkDiffFile (extractPathFromDiffLine (lines.headD "")) lines

/-- Invariant carried for the in-progress file of `parseAux`. -/
def WFcur : Option (String × List String) → Prop
  | none => True
  | some (p, acc) =>
    acc ≠ [] ∧ (∀ l ∈ acc, '\n' ∉ l.data) ∧
    startsWithStr (acc.headD "") "diff --git" = true ∧
    (∀ l ∈ acc.tail, startsWithStr l "diff --git" = false) ∧
    p = extractPathFromDiffLine (acc.headD "")

/-- The concrete diff used to refute the order claim C3: three source files
with per-section word counts 10, 7 and 6. -/
def rawDiffC3 : String :=
  "diff --git a/a.go b/a.go\n+a b c d e f\ndiff --git a/c.go b/c.go\n+g h i\ndiff --git a/b.go b/b.go\n+j k"

/-- The fields of `github.CommitFile` that `CompressFileList` copies
(pointer-typed fields become `Option`s). -/
structure CommitFile where
  SHA : Option String
  Filename : Option String
  Additions : Option Int
  Deletions : Option Int
  Changes : Option Int
  Status : Option String
  RawURL : Option String
  BlobURL : Option String
  ContentsURL : Option String
  PreviousFilename : Option String
  Patch : Option String
deriving DecidableEq, Repr

/-- Model of `FileListCompressor`: budgets read by `NewFileListCompressor` from the same
environment variables (positive, defaults 50000/5000). -/
structure FileListCompressor where
  maxTotalWords : Nat
  maxFileWords : Nat
deriving DecidableEq, Repr

def markerNonSource : String := "[Patch removed: non-source code file]"

def markerTooLarge : String := "[Patch removed: file too large]"

def markerDeletionOnly : String := "[Patch removed: deletion-only file]"

def markerWordLimit : String := "[Patch removed: reached word limit]"

/-- The extension allow-list of the file-list compressor's `isSourceCodeFile`. -/
def flSourceExts : List String :=
  [".go", ".py", ".js", ".ts", ".jsx", ".tsx", ".java", ".c", ".cpp", ".h",
   ".hpp", ".cs", ".php", ".rb", ".rs", ".kt", ".swift", ".scala", ".clj",
   ".ml", ".hs", ".sh", ".bash", ".zsh", ".ps1", ".sql", ".r", ".m", ".pl",
   ".lua", ".dart", ".vue", ".svelte", ".elm", ".ex", ".exs", ".cr", ".nim",
   ".zig", ".v", ".html", ".css", ".scss", ".sass", ".less", ".xml", ".yaml",
   ".yml", ".json", ".toml", ".ini", ".cfg", ".conf", ".properties", ".env",
   ".gitignore", ".dockerfile", ".makefile", ".md", ".rst", ".txt"]

/-- The special-basename allow-list of the file-list compressor's
`isSourceCodeFile`. -/
def flSpecialFiles : List String :=
  ["makefile", "dockerfile", "rakefile", "gemfile", "podfile",
   "readme", "license", "changelog", "contributing",
   "go.sum", "go.mod", "package-lock.json", "yarn.lock"]

/-- Model of `(*FileListCompressor).isSourceCodeFile` from diff_compressor.go. -/
def flIsSourceCodeFile (filename : String) : Bool :=
  let ext := toLowerStr (filepathExt filename)
  if flSourceExts.contains ext then true
  else
    let baseName := toLowerStr (filepathBase filename)
    flSpecialFiles.contains baseName

/-- Model of `(*FileListCompressor).calculateTotalWords` (also the inline total-words
loop at the top of `CompressFileList`). -/
def calculateTotalWords (files : List CommitFile) : Nat :=
  (files.map (fun f =>
    match f.Patch with
    | some p => countWordsStr p
    | none => 0)).sum

/-- Model of `(*FileListCompressor).removePatchFromNonSourceFiles`. -/
def removePatchFromNonSourceFiles (files : List CommitFile) : List CommitFile :=
  files.map (fun file =>
    match file.Filename with
    | some name =>
      if !flIsSourceCodeFile name then { file with Patch := some markerNonSource }
      else file
    | none => file)

/-- Model of `(*FileListCompressor).removePatchFromLargeFiles`. -/
def removePatchFromLargeFiles (c : FileListCompressor) (files : List CommitFile) :
    List CommitFile :=
  files.map (fun file =>
    match file.Patch with
    | some p =>
      if c.maxFileWords < countWordsStr p then { file with Patch := some markerTooLarge }
      else file
    | none => file)

/-- Model of `(*FileListCompressor).isDeletionOnlyFile`. -/
def isDeletionOnlyFile (file : CommitFile) : Bool :=
  match file.Changes, file.Deletions with
  | some ch, some del => decide (ch = del) && decide (0 < ch)
  | _, _ =>
    match file.Patch with
    | none => false
    | some p =>
      !((splitLines p).any (fun line =>
        startsWithStr line "+" && !(startsWithStr line "+++")))

/-- Model of `(*FileListCompressor).removePatchFromDeletionOnlyFiles`. -/
def removePatchFromDeletionOnlyFiles (files : List CommitFile) : List CommitFile :=
  files.map (fun file =>
    match file.Patch with
    | some _ =>
      if isDeletionOnlyFile file then { file with Patch := some markerDeletionOnly }
      else file
    | none => file)

/-- The importance score of `keepOnlyImportantFilePatches`: +1000 for source
code, plus the addition count when present. -/
def flScore (file : CommitFile) : Int :=
  (if (match file.Filename with
       | some n => flIsSourceCodeFile n
       | none => false) then (1000 : Int) else 0) +
  (match file.Additions with
   | some a => a
   | none => 0)

/-- The `fileStats` rows of `keepOnlyImportantFilePatches`: for every file with
a non-nil patch, its index in the list (standing in for the Go pointer), word
count and score. -/
def flStats (files : List CommitFile) : List (Nat × Nat × Int) :=
  files.enum.filterMap (fun pair =>
    match pair.2.Patch with
    | none => none
    | some p => some (pair.1, countWordsStr p, flScore pair.2))

/-- The sort order of `keepOnlyImportantFilePatches`: score descending, ties by
word count ascending (`sort.Slice` is unstable; modelled as insertion sort). -/
def flRank (a b : Nat × Nat × Int) : Prop :=
  b.2.2 < a.2.2 ∨ (a.2.2 = b.2.2 ∧ a.2.1 ≤ b.2.1)

instance : DecidableRel flRank := fun a b =>
  inferInstanceAs (Decidable (b.2.2 < a.2.2 ∨ (a.2.2 = b.2.2 ∧ a.2.1 ≤ b.2.1)))

/-- Model of `(*FileListCompressor).keepOnlyImportantFilePatches`: walk the ranked rows
accumulating kept word counts; a row that does not fit gets its file's patch
replaced by the word-limit marker (the Go pointer write is modelled by
`List.modify` at the recorded index). -/
def keepOnlyImportantFilePatches (c : FileListCompressor) (files : List CommitFile) :
    List CommitFile :=
  let fileStats := flStats files
  let sorted := List.insertionSort flRank fileStats
  (sorted.foldl
    (fun acc stat =>
      if acc.2 + stat.2.1 ≤ c.maxTotalWords then (acc.1, acc.2 + stat.2.1)
      else (List.modify (fun file => { file with Patch := some markerWordLimit })
        stat.1 acc.1, acc.2))
    (files, 0)).1

/-- Model of `(*FileListCompressor).CompressFileList` from diff_compressor.go (the Go
deep copy of each record is the identity in this value-level model). -/
def CompressFileList (c : FileListCompressor) (files : List CommitFile) :
    List CommitFile :=
  if calculateTotalWords files ≤ c.maxTotalWords then files
  else
    let cf1 := removePatchFromNonSourceFiles files
    if calculateTotalWords cf1 ≤ c.maxTotalWords then cf1
    else
      let cf2 := removePatchFromLargeFiles c cf1
      if calculateTotalWords cf2 ≤ c.maxTotalWords then cf2
      else
        let cf3 := removePatchFromDeletionOnlyFiles cf2
        if calculateTotalWords cf3 ≤ c.maxTotalWords then cf3
        else keepOnlyImportantFilePatches c cf3

/-- Agreement on every `CommitFile` field except `Patch`. -/
def nonPatchEq (a b : CommitFile) : Prop :=
  a.SHA = b.SHA ∧ a.Filename = b.Filename ∧ a.Additions = b.Additions ∧
  a.Deletions = b.Deletions ∧ a.Changes = b.Changes ∧ a.Status = b.Status ∧
  a.RawURL = b.RawURL ∧ a.BlobURL = b.BlobURL ∧ a.ContentsURL = b.ContentsURL ∧
  a.PreviousFilename = b.PreviousFilename

/-- A patch value equal to one of the four fixed redaction markers. -/
def IsMarkerPatch (p : Option String) : Prop :=
  p = some markerNonSource ∨ p = some markerTooLarge ∨
  p = some markerDeletionOnly ∨ p = some markerWordLimit

/-- Holds when `cur` is `orig` with some patches replaced by markers and nothing else
changed. -/
def RedactRel (orig cur : List CommitFile) : Prop :=
  cur.length = orig.length ∧
  ∀ i (h1 : i < orig.length) (h2 : i < cur.length),
    nonPatchEq (orig.get ⟨i, h1⟩) (cur.get ⟨i, h2⟩) ∧
    ((cur.get ⟨i, h2⟩).Patch ≠ (orig.get ⟨i, h1⟩).Patch →
      IsMarkerPatch (cur.get ⟨i, h2⟩).Patch)

/-- The indices that the final-fallback walk redacts: fold over the ranked
rows, advancing the kept-words total on fits and recording the index
otherwise. -/
def flRedactedIdxs (c : FileListCompressor) (files : List CommitFile) : List Nat :=
  ((List.insertionSort flRank (flStats files)).foldl
    (fun acc stat =>
      if acc.1 + stat.2.1 ≤ c.maxTotalWords then (acc.1 + stat.2.1, acc.2)
      else (acc.1, acc.2 ++ [stat.1]))
    (0, [])).2

/-- Concrete records exercising the file-list compressor. -/
def cfGoA : CommitFile :=
  ⟨none, some "a.go", some 30, none, none, none, none, none, none, none,
    some "+w w w w w\n+x"⟩

def cfGoB : CommitFile :=
  ⟨none, some "b.go", some 20, none, none, none, none, none, none, none,
    some "+a b c d\n+e"⟩

def cfGoC : CommitFile :=
  ⟨none, some "c.go", some 10, none, none, none, none, none, none, none,
    some "+p q\n+r"⟩

def cfGoSix : CommitFile :=
  ⟨none, some "a.go", none, none, none, none, none, none, none, none,
    some "w w w w w w"⟩

def cfPngNil : CommitFile :=
  ⟨none, some "b.png", none, some 2, some 2, none, none, none, none, none, none⟩

def cfPngSix : CommitFile :=
  ⟨none, some "x.png", none, none, none, none, none, none, none, none,
    some "w w w w w w"⟩

/-- The state threaded through `addLineNumbersToNewLines`: the running
new-file line counter and whether the scan is inside a hunk. -/
structure AnnState where
  num : Int
  inChunk : Bool
deriving DecidableEq, Repr

/-- One range half of a hunk header (`start[,lines]`): used identically for
the `-old` and `+new` halves of `parseChunkHeader`, whose two branches are
verbatim copies of each other in the source; the count defaults to 1 when the
`,lines` part is absent. -/
def parseRangePart (part : String) : Option (Int × Int) :=
  if containsCh part ',' then
    let range := (splitCh ',' part.data).map String.mk
    match goAtoi (range.getD 0 "") with
    | none => none
    | some start =>
      match goAtoi (range.getD 1 "") with
      | none => none
      | some lines => some (start, lines)
  else
    match goAtoi part with
    | none => none
    | some start => some (start, 1)

/-- Model of `parseChunkHeader` from tools.go: trim the `@`/space cutset, split into
fields, and parse `-oldStart[,oldLines]` and `+newStart[,newLines]`. -/
def parseChunkHeader (header : String) : Except String (Int × Int × Int × Int) :=
  let parts := goFields (trimCutset header (fun c => c = '@' || c = ' '))
  if parts.length < 2 then Except.error "invalid chunk header format"
  else
    let oldPart := parts.getD 0 ""
    if !(startsWithStr oldPart "-") then Except.error "invalid old range format"
    else
      match parseRangePart (strDropN oldPart 1) with
      | none => Except.error "invalid old range numbers"
      | some (oldStart, oldLines) =>
        let newPart := parts.getD 1 ""
        if !(startsWithStr newPart "+") then Except.error "invalid new range format"
        else
          match parseRangePart (strDropN newPart 1) with
          | none => Except.error "invalid new range numbers"
          | some (newStart, newLines) =>
            Except.ok (oldStart, oldLines, newStart, newLines)

/-- The loop body of `addLineNumbersToNewLines`. -/
def annotateLine (st : AnnState) (line : String) : AnnState × String :=
  if startsWithStr line "@@" then
    match parseChunkHeader line with
    | Except.error _ => (st, line)
    | Except.ok (_, _, newStart, _) => (⟨newStart, true⟩, line)
  else if !st.inChunk then (st, line)
  else if strLen line = 0 then ({ st with num := st.num + 1 }, line)
  else
    match line.data with
    | [] => (st, line)
    | ch :: rest =>
      if ch = '+' then
        ({ st with num := st.num + 1 }, intToStr st.num ++ " +" ++ String.mk rest)
      else if ch = '-' then (st, "   -" ++ String.mk rest)
      else if ch = ' ' then
        ({ st with num := st.num + 1 }, intToStr st.num ++ "  " ++ String.mk rest)
      else if startsWithStr line "diff --git" then ({ st with inChunk := false }, line)
      else (st, line)

def annotateLines (st : AnnState) : List String → List String
  | [] => []
  | l :: ls =>
    let p := annotateLine st l
    p.2 :: annotateLines p.1 ls

/-- Model of `addLineNumbersToNewLines` from tools.go (its `error` result is constantly
nil in the source and omitted). -/
def addLineNumbersToNewLines (diffContent : String) : String :=
  joinLines (annotateLines ⟨0, false⟩ (splitLines diffContent))

/-! ## Theorems -/

theorem splitCh_eq_cons (c : Char) (t : List Char) :
    ∃ h r, splitCh c t = h :: r := by
  cases hx : splitCh c t with
  | nil =>
    exfalso
    cases t with
    | nil => simp [splitCh] at hx
    | cons a t' =>
      simp only [splitCh] at hx
      cases hy : splitCh c t' with
      | nil => rw [hy] at hx; simp at hx
      | cons h r =>
        rw [hy] at hx
        by_cases hac : a = c <;> simp [hac] at hx
  | cons h r => exact ⟨h, r, rfl⟩

theorem splitCh_cons_eq (c a : Char) (t h : List Char) (r : List (List Char))
    (ht : splitCh c t = h :: r) :
    splitCh c (a :: t) = if a = c then [] :: h :: r else (a :: h) :: r := by
  simp [splitCh, ht]

theorem splitCh_ne_nil (c : Char) (l : List Char) : splitCh c l ≠ [] := by
  cases l with
  | nil => simp [splitCh]
  | cons a t =>
    simp only [splitCh]
    cases h : splitCh c t with
    | nil => simp
    | cons h r =>
      by_cases hac : a = c <;> simp [hac]

theorem splitCh_of_not_mem {c : Char} {l : List Char} (h : c ∉ l) :
    splitCh c l = [l] := by
  induction l with
  | nil => rfl
  | cons a t ih =>
    have hac : ¬a = c := fun hh => h (hh ▸ List.mem_cons_self a t)
    have ht : c ∉ t := fun hh => h (List.mem_cons_of_mem a hh)
    simp [splitCh, ih ht, hac]

theorem splitCh_append (c : Char) (A B : List Char) :
    splitCh c (A ++ c :: B) = splitCh c A ++ splitCh c B := by
  induction A with
  | nil =>
    simp only [List.nil_append, splitCh]
    cases h : splitCh c B with
    | nil => exact absurd h (splitCh_ne_nil c B)
    | cons h r => simp
  | cons a A ih =>
    obtain ⟨h, r, hA⟩ := splitCh_eq_cons c A
    have ht : splitCh c (A ++ c :: B) = h :: (r ++ splitCh c B) := by
      rw [ih, hA]; rfl
    rw [List.cons_append, splitCh_cons_eq c a _ h (r ++ splitCh c B) ht,
      splitCh_cons_eq c a A h r hA]
    by_cases hac : a = c <;> simp [hac]

theorem joinCh_splitCh (c : Char) (l : List Char) :
    joinCh c (splitCh c l) = l := by
  induction l with
  | nil => rfl
  | cons a t ih =>
    simp only [splitCh]
    cases h : splitCh c t with
    | nil => exact absurd h (splitCh_ne_nil c t)
    | cons hd r =>
      rw [h] at ih
      by_cases hac : a = c
      · subst hac
        simpa [joinCh] using ih
      · simp only [if_neg hac]
        cases r with
        | nil => simpa [joinCh] using ih
        | cons r0 rs => simpa [joinCh] using ih

theorem splitCh_joinCh {c : Char} {L : List (List Char)} (hL : L ≠ [])
    (h : ∀ l ∈ L, c ∉ l) : splitCh c (joinCh c L) = L := by
  induction L with
  | nil => exact absurd rfl hL
  | cons l0 t ih =>
    cases t with
    | nil =>
      simp only [joinCh]
      exact splitCh_of_not_mem (h l0 (List.mem_cons_self l0 []))
    | cons l1 ts =>
      have step : joinCh c (l0 :: l1 :: ts) = l0 ++ c :: joinCh c (l1 :: ts) := rfl
      rw [step, splitCh_append,
        splitCh_of_not_mem (h l0 (List.mem_cons_self _ _)),
        ih (by simp) (fun l hl => h l (List.mem_cons_of_mem _ hl))]
      rfl

theorem mem_splitCh_not_mem {c : Char} {l chunk : List Char}
    (h : chunk ∈ splitCh c l) : c ∉ chunk := by
  induction l generalizing chunk with
  | nil =>
    simp only [splitCh, List.mem_singleton] at h
    subst h; simp
  | cons a t ih =>
    obtain ⟨hd, r, ht⟩ := splitCh_eq_cons c t
    rw [splitCh_cons_eq c a t hd r ht] at h
    by_cases hac : a = c
    · rw [if_pos hac] at h
      rcases List.mem_cons.mp h with h1 | h2
      · subst h1; simp
      · exact ih (by rw [ht]; exact h2)
    · rw [if_neg hac] at h
      rcases List.mem_cons.mp h with h1 | h2
      · subst h1
        intro hmem
        rcases List.mem_cons.mp hmem with h3 | h4
        · exact hac h3.symm
        · exact ih (by rw [ht]; exact List.mem_cons_self hd r) h4
      · exact ih (by rw [ht]; exact List.mem_cons_of_mem hd h2)

theorem splitCh_joinCh_join {c : Char} {M : List (List Char)} (hM : M ≠ []) :
    splitCh c (joinCh c M) = (M.map (splitCh c)).flatten := by
  induction M with
  | nil => exact absurd rfl hM
  | cons m0 t ih =>
    cases t with
    | nil => simp [joinCh]
    | cons m1 ts =>
      have step : joinCh c (m0 :: m1 :: ts) = m0 ++ c :: joinCh c (m1 :: ts) := rfl
      rw [step, splitCh_append, ih (by simp)]
      simp

theorem joinLines_splitLines (s : String) : joinLines (splitLines s) = s := by
  cases s with
  | mk data =>
    simp only [joinLines, splitLines, List.map_map]
    have : (String.data ∘ String.mk) = id := rfl
    rw [this, List.map_id, joinCh_splitCh]

theorem splitLines_joinLines {L : List String} (hL : L ≠ [])
    (h : ∀ l ∈ L, '\n' ∉ l.data) : splitLines (joinLines L) = L := by
  simp only [splitLines, joinLines]
  rw [splitCh_joinCh (by simpa using hL)
    (fun l hl => by
      obtain ⟨l', hl', rfl⟩ := List.mem_map.mp hl
      exact h l' hl')]
  simp only [List.map_map]
  have : (String.mk ∘ String.data) = id := by
    funext x; cases x; rfl
  rw [this, List.map_id]

theorem mem_splitLines_no_newline {s : String} {l : String}
    (h : l ∈ splitLines s) : '\n' ∉ l.data := by
  simp only [splitLines, List.mem_map] at h
  obtain ⟨chunk, hchunk, rfl⟩ := h
  exact mem_splitCh_not_mem hchunk

theorem splitLines_joinLines_flatten {M : List String} (hM : M ≠ []) :
    splitLines (joinLines M) = (M.map splitLines).flatten := by
  simp only [splitLines, joinLines]
  rw [splitCh_joinCh_join (by simpa using hM)]
  simp only [List.map_flatten, List.map_map, Function.comp_def]
  rfl

theorem headD_append_ne_nil {acc : List String} (h : acc ≠ []) (l : String) :
    (acc ++ [l]).headD "" = acc.headD "" := by
  cases acc with
  | nil => exact absurd rfl h
  | cons a t => rfl

theorem tail_append_ne_nil {acc : List String} (h : acc ≠ []) (l : String) :
    (acc ++ [l]).tail = acc.tail ++ [l] := by
  cases acc with
  | nil => exact absurd rfl h
  | cons a t => rfl

theorem parseAux_wf (lines : List String) (cur : Option (String × List String))
    (hlines : ∀ l ∈ lines, '\n' ∉ l.data) (hcur : WFcur cur) :
    ∀ f ∈ parseAux cur lines, WFfile f := by
  induction lines generalizing cur with
  | nil =>
    intro f hf
    match cur with
    | none => simp [parseAux] at hf
    | some (p, acc) =>
      simp only [parseAux, List.mem_singleton] at hf
      obtain ⟨h1, h2, h3, h4, h5⟩ := hcur
      exact ⟨acc, h1, h2, h3, h4, by rw [hf, h5]⟩
  | cons line rest ih =>
    intro f hf
    have hline : '\n' ∉ line.data := hlines line (List.mem_cons_self _ _)
    have hrest : ∀ l ∈ rest, '\n' ∉ l.data :=
      fun l hl => hlines l (List.mem_cons_of_mem _ hl)
    by_cases hm : startsWithStr line "diff --git" = true
    · have hnewcur : WFcur (some (extractPathFromDiffLine line, [line])) := by
        refine ⟨by simp, ?_, ?_, ?_, rfl⟩
        · intro l hl
          rw [List.mem_singleton] at hl
          exact hl ▸ hline
        · simpa using hm
        · intro l hl
          simp at hl
      match cur with
      | none =>
        simp only [parseAux, hm, if_true] at hf
        exact ih _ hrest hnewcur f hf
      | some (p, acc) =>
        simp only [parseAux, hm, if_true] at hf
        obtain ⟨h1, h2, h3, h4, h5⟩ := hcur
        rcases List.mem_cons.mp hf with hf1 | hf2
        · exact ⟨acc, h1, h2, h3, h4, by rw [hf1, h5]⟩
        · exact ih _ hrest hnewcur f hf2
    · have hm' : startsWithStr line "diff --git" = false := by
        simpa using hm
      match cur with
      | none =>
        simp only [parseAux, hm', Bool.false_eq_true, if_false] at hf
        exact ih none hrest (by exact trivial) f hf
      | some (p, acc) =>
        simp only [parseAux, hm', Bool.false_eq_true, if_false] at hf
        obtain ⟨h1, h2, h3, h4, h5⟩ := hcur
        refine ih _ hrest ?_ f hf
        refine ⟨by simp, ?_, ?_, ?_, ?_⟩
        · intro l hl
          rcases List.mem_append.mp hl with hl1 | hl2
          · exact h2 l hl1
          · rw [List.mem_singleton] at hl2
            exact hl2 ▸ hline
        · rw [headD_append_ne_nil h1]
          exact h3
        · rw [tail_append_ne_nil h1]
          intro l hl
          rcases List.mem_append.mp hl with hl1 | hl2
          · exact h4 l hl1
          · rw [List.mem_singleton] at hl2
            exact hl2 ▸ hm'
        · rw [headD_append_ne_nil h1]
          exact h5

theorem parse_wf (rawDiff : String) :
    ∀ f ∈ parseDiffIntoFiles rawDiff, WFfile f :=
  parseAux_wf _ none (fun _ hl => mem_splitLines_no_newline hl) trivial

theorem parseAux_consume {tail : List String}
    (htail : ∀ l ∈ tail, startsWithStr l "diff --git" = false) :
    ∀ (rest : List String) (p : String) (acc : List String),
      parseAux (some (p, acc)) (tail ++ rest) = parseAux (some (p, acc ++ tail)) rest := by
  induction tail with
  | nil => intro rest p acc; simp
  | cons line t ih =>
    intro rest p acc
    have hline : startsWithStr line "diff --git" = false :=
      htail line (List.mem_cons_self _ _)
    have ht : ∀ l ∈ t, startsWithStr l "diff --git" = false :=
      fun l hl => htail l (List.mem_cons_of_mem _ hl)
    simp only [List.cons_append, List.append_eq, parseAux, hline,
      Bool.false_eq_true, if_false]
    rw [ih ht rest p (acc ++ [line]), List.append_assoc]
    rfl

theorem parseAux_consume_end {tail : List String}
    (htail : ∀ l ∈ tail, startsWithStr l "diff --git" = false)
    (p : String) (acc : List String) :
    parseAux (some (p, acc)) tail = [mkDiffFile p (acc ++ tail)] := by
  have h := parseAux_consume htail [] p acc
  rw [List.append_nil] at h
  rw [h]
  rfl

theorem parseAux_flush {m : String} (hm : startsWithStr m "diff --git" = true)
    (r : List String) (p : String) (acc : List String) :
    parseAux (some (p, acc)) (m :: r) =
      mkDiffFile p acc :: parseAux none (m :: r) := by
  simp [parseAux, hm]

/-- Reconstructing well-formed files and parsing the result gives back exactly
the same file list. -/
theorem parse_reconstruct {files : List DiffFile} (h : ∀ f ∈ files, WFfile f) :
    parseDiffIntoFiles (reconstructDiff files) = files := by
  cases hfe : files with
  | nil => rfl
  | cons f0 fs =>
    subst hfe
    have hne : (f0 :: fs) ≠ [] := by simp
    rw [reconstructDiff, if_neg hne]
    -- choose the line decomposition of every file
    -- and show the parse consumes segment by segment
    suffices hgen : ∀ (files : List DiffFile), files ≠ [] →
        (∀ f ∈ files, WFfile f) →
        parseAux none (splitLines (joinLines (files.map DiffFile.Content))) = files by
      exact hgen (f0 :: fs) hne h
    intro files
    induction files with
    | nil => intro hne' _; exact absurd rfl hne'
    | cons g gs ih =>
      intro _ hwf
      obtain ⟨glines, hg1, hg2, hg3, hg4, hg5⟩ := hwf g (List.mem_cons_self _ _)
      have hgcontent : g.Content = joinLines glines := by rw [hg5]; rfl
      have hgsplit : splitLines g.Content = glines := by
        rw [hgcontent, splitLines_joinLines hg1 hg2]
      obtain ⟨gh, gt, hglines⟩ : ∃ gh gt, glines = gh :: gt := by
        cases glines with
        | nil => exact absurd rfl hg1
        | cons a b => exact ⟨a, b, rfl⟩
      have hmarker : startsWithStr gh "diff --git" = true := by
        rw [hglines] at hg3; exact hg3
      have hgtail : ∀ l ∈ gt, startsWithStr l "diff --git" = false := by
        rw [hglines] at hg4; exact hg4
      cases gs with
      | nil =>
        rw [List.map_singleton,
          splitLines_joinLines_flatten (by simp), List.map_singleton,
          List.flatten_singleton, hgsplit, hglines]
        simp only [parseAux, hmarker, if_true]
        rw [parseAux_consume_end hgtail]
        simp only [List.singleton_append]
        rw [hglines] at hg5
        simp only [List.headD_cons] at hg5
        exact congrArg (fun x => [x]) hg5.symm
      | cons g1 gs1 =>
        have hflat : splitLines (joinLines ((g :: g1 :: gs1).map DiffFile.Content)) =
            splitLines g.Content ++
              (( (g1 :: gs1).map DiffFile.Content).map splitLines).flatten := by
          rw [splitLines_joinLines_flatten (by simp)]
          simp [List.map_map, Function.comp_def]
        rw [hflat, hgsplit, hglines, List.cons_append]
        simp only [parseAux, hmarker, if_true]
        rw [parseAux_consume hgtail _ _ [gh]]
        -- the remaining lines start with the marker line of g1
        obtain ⟨g1lines, hq1, hq2, hq3, hq4, hq5⟩ := hwf g1 (by simp)
        have hq1content : g1.Content = joinLines g1lines := by rw [hq5]; rfl
        have hq1split : splitLines g1.Content = g1lines := by
          rw [hq1content, splitLines_joinLines hq1 hq2]
        obtain ⟨qh, qt, hqlines⟩ : ∃ qh qt, g1lines = qh :: qt := by
          cases g1lines with
          | nil => exact absurd rfl hq1
          | cons a b => exact ⟨a, b, rfl⟩
        have hqmarker : startsWithStr qh "diff --git" = true := by
          rw [hqlines] at hq3; exact hq3
        have hrest : (((g1 :: gs1).map DiffFile.Content).map splitLines).flatten =
            qh :: (qt ++ ((gs1.map DiffFile.Content).map splitLines).flatten) := by
          simp only [List.map_cons, List.flatten_cons, hq1split, hqlines]
          rfl
        rw [hrest, parseAux_flush hqmarker, ← hrest]
        have hih : parseAux none (((g1 :: gs1).map DiffFile.Content).map splitLines).flatten
            = g1 :: gs1 := by
          have := ih (by simp) (fun f hf => hwf f (List.mem_cons_of_mem _ hf))
          rw [splitLines_joinLines_flatten (by simp)] at this
          simpa [List.map_map, Function.comp_def] using this
        rw [hih]
        have hgg : mkDiffFile (extractPathFromDiffLine gh) (gh :: gt) = g := by
          rw [hglines] at hg5
          simp only [List.headD_cons] at hg5
          exact hg5.symm
        simp only [List.singleton_append]
        rw [hgg]

theorem getTotalWords_append (a : List DiffFile) (f : DiffFile) :
    getTotalWords (a ++ [f]) = getTotalWords a + f.WordCount := by
  simp [getTotalWords]

theorem isWithinLimits_spec (c : DiffCompressor) (files : List DiffFile) :
    isWithinLimits c files = true ↔
      getTotalWords files ≤ c.maxWords ∧
        ∀ f ∈ files, f.WordCount ≤ c.maxFileWords := by
  simp [isWithinLimits, List.all_eq_true]

theorem trim_foldl_spec (c : DiffCompressor) (l : List DiffFile)
    (r : List DiffFile) (t : Nat) (hrt : getTotalWords r = t) (ht : t ≤ c.maxWords) :
    getTotalWords ((l.foldl
        (fun acc f =>
          if acc.2 + f.WordCount ≤ c.maxWords then (acc.1 ++ [f], acc.2 + f.WordCount)
          else acc) (r, t)).1) ≤ c.maxWords := by
  induction l generalizing r t with
  | nil => simpa [hrt] using ht
  | cons f l ih =>
    simp only [List.foldl_cons]
    by_cases hfit : t + f.WordCount ≤ c.maxWords
    · rw [if_pos hfit]
      exact ih (r ++ [f]) (t + f.WordCount) (by rw [getTotalWords_append, hrt]) hfit
    · rw [if_neg hfit]
      exact ih r t hrt ht

theorem trim_foldl_result (c : DiffCompressor) (l : List DiffFile)
    (r : List DiffFile) (t : Nat) :
    ∃ s, (l.foldl
        (fun acc f =>
          if acc.2 + f.WordCount ≤ c.maxWords then (acc.1 ++ [f], acc.2 + f.WordCount)
          else acc) (r, t)).1 = r ++ s ∧ s.Sublist l := by
  induction l generalizing r t with
  | nil => exact ⟨[], by simp⟩
  | cons f l ih =>
    simp only [List.foldl_cons]
    by_cases hfit : t + f.WordCount ≤ c.maxWords
    · rw [if_pos hfit]
      obtain ⟨s, hs1, hs2⟩ := ih (r ++ [f]) (t + f.WordCount)
      exact ⟨f :: s, by rw [hs1, List.append_assoc]; rfl,
        List.Sublist.cons₂ f hs2⟩
    · rw [if_neg hfit]
      obtain ⟨s, hs1, hs2⟩ := ih r t
      exact ⟨s, hs1, List.Sublist.cons f hs2⟩

theorem trim_total (c : DiffCompressor) (files : List DiffFile) :
    getTotalWords (trimToMaxWords c files) ≤ c.maxWords := by
  rw [trimToMaxWords]
  by_cases h : getTotalWords files ≤ c.maxWords
  · rw [if_pos h]
    exact h
  · simp only [h, if_false]
    exact trim_foldl_spec c _ [] 0 rfl (Nat.zero_le _)

theorem trim_sublist_sortedRev (c : DiffCompressor) (files : List DiffFile)
    (h : ¬ getTotalWords files ≤ c.maxWords) :
    (trimToMaxWords c files).Sublist
      (List.insertionSort (fun a b => b.WordCount ≤ a.WordCount) files).reverse := by
  rw [trimToMaxWords]
  simp only [h, if_false]
  obtain ⟨s, hs1, hs2⟩ := trim_foldl_result c
    (List.insertionSort (fun a b => b.WordCount ≤ a.WordCount) files).reverse [] 0
  rw [hs1]
  simpa using hs2

theorem trim_mem (c : DiffCompressor) (files : List DiffFile) :
    ∀ f ∈ trimToMaxWords c files, f ∈ files := by
  intro f hf
  rw [trimToMaxWords] at hf
  by_cases h : getTotalWords files ≤ c.maxWords
  · simpa [h] using hf
  · simp only [h, if_false] at hf
    have hsub := trim_sublist_sortedRev c files h
    rw [trimToMaxWords] at hsub
    simp only [h, if_false] at hsub
    have hmem := hsub.mem hf
    rw [List.mem_reverse] at hmem
    exact (List.perm_insertionSort (fun a b => b.WordCount ≤ a.WordCount) files).mem_iff.mp hmem

theorem trim_pairwise (c : DiffCompressor) (files : List DiffFile) :
    ¬ getTotalWords files ≤ c.maxWords →
    ((trimToMaxWords c files).map DiffFile.WordCount).Pairwise (· ≤ ·) := by
  intro h
  haveI : IsTotal DiffFile (fun a b => b.WordCount ≤ a.WordCount) :=
    ⟨fun a b => Nat.le_total b.WordCount a.WordCount⟩
  haveI : IsTrans DiffFile (fun a b => b.WordCount ≤ a.WordCount) :=
    ⟨fun _ _ _ hab hbc => Nat.le_trans hbc hab⟩
  have hsorted := List.sorted_insertionSort
    (fun a b => b.WordCount ≤ a.WordCount) files
  have hrev : (List.insertionSort (fun a b => b.WordCount ≤ a.WordCount) files).reverse.Pairwise
      (fun a b => a.WordCount ≤ b.WordCount) := by
    rw [List.pairwise_reverse]
    exact hsorted
  have hsub := trim_sublist_sortedRev c files h
  have hpw := List.Pairwise.sublist hsub hrev
  exact (List.pairwise_map).mpr hpw

theorem filterLarge_bound (c : DiffCompressor) (l : List DiffFile) :
    ∀ f ∈ filterLargeFiles c l, f.WordCount ≤ c.maxFileWords := by
  intro f hf
  have := List.of_mem_filter hf
  simpa using this

theorem mem_stage1 {files : List DiffFile} {f : DiffFile}
    (h : f ∈ filterSourceCodeFiles files) : f ∈ files :=
  List.mem_of_mem_filter h

theorem mem_stage2 {c : DiffCompressor} {files : List DiffFile} {f : DiffFile}
    (h : f ∈ filterLargeFiles c files) : f ∈ files :=
  List.mem_of_mem_filter h

theorem mem_stage3 {files : List DiffFile} {f : DiffFile}
    (h : f ∈ filterDeletionOnlyFiles files) : f ∈ files :=
  List.mem_of_mem_filter h

theorem compressDiff_fast (c : DiffCompressor) (raw : String)
    (h0 : getTotalWords (parseDiffIntoFiles raw) ≤ c.maxWords ∧
      hasOversizedFiles c (parseDiffIntoFiles raw) = false) :
    CompressDiff c raw = raw := by
  simp only [CompressDiff]
  rw [if_pos h0]

theorem compressDiff_stage1 (c : DiffCompressor) (raw : String)
    (h0 : ¬ (getTotalWords (parseDiffIntoFiles raw) ≤ c.maxWords ∧
      hasOversizedFiles c (parseDiffIntoFiles raw) = false))
    (h1 : isWithinLimits c (filterSourceCodeFiles (parseDiffIntoFiles raw)) = true) :
    CompressDiff c raw =
      reconstructDiff (filterSourceCodeFiles (parseDiffIntoFiles raw)) := by
  simp only [CompressDiff]
  rw [if_neg h0, if_pos h1]

theorem compressDiff_stage2 (c : DiffCompressor) (raw : String)
    (h0 : ¬ (getTotalWords (parseDiffIntoFiles raw) ≤ c.maxWords ∧
      hasOversizedFiles c (parseDiffIntoFiles raw) = false))
    (h1 : isWithinLimits c (filterSourceCodeFiles (parseDiffIntoFiles raw)) = false)
    (h2 : isWithinLimits c
      (filterLargeFiles c (filterSourceCodeFiles (parseDiffIntoFiles raw))) = true) :
    CompressDiff c raw =
      reconstructDiff (filterLargeFiles c (filterSourceCodeFiles (parseDiffIntoFiles raw))) := by
  simp only [CompressDiff]
  rw [if_neg h0, if_neg (by simp [h1]), if_pos h2]

theorem compressDiff_stage3 (c : DiffCompressor) (raw : String)
    (h0 : ¬ (getTotalWords (parseDiffIntoFiles raw) ≤ c.maxWords ∧
      hasOversizedFiles c (parseDiffIntoFiles raw) = false))
    (h1 : isWithinLimits c (filterSourceCodeFiles (parseDiffIntoFiles raw)) = false)
    (h2 : isWithinLimits c
      (filterLargeFiles c (filterSourceCodeFiles (parseDiffIntoFiles raw))) = false)
    (h3 : isWithinLimits c (filterDeletionOnlyFiles
      (filterLargeFiles c (filterSourceCodeFiles (parseDiffIntoFiles raw)))) = true) :
    CompressDiff c raw = reconstructDiff (filterDeletionOnlyFiles
      (filterLargeFiles c (filterSourceCodeFiles (parseDiffIntoFiles raw)))) := by
  simp only [CompressDiff]
  rw [if_neg h0, if_neg (by simp [h1]), if_neg (by simp [h2]), if_pos h3]

theorem compressDiff_stage4 (c : DiffCompressor) (raw : String)
    (h0 : ¬ (getTotalWords (parseDiffIntoFiles raw) ≤ c.maxWords ∧
      hasOversizedFiles c (parseDiffIntoFiles raw) = false))
    (h1 : isWithinLimits c (filterSourceCodeFiles (parseDiffIntoFiles raw)) = false)
    (h2 : isWithinLimits c
      (filterLargeFiles c (filterSourceCodeFiles (parseDiffIntoFiles raw))) = false)
    (h3 : isWithinLimits c (filterDeletionOnlyFiles
      (filterLargeFiles c (filterSourceCodeFiles (parseDiffIntoFiles raw)))) = false) :
    CompressDiff c raw = reconstructDiff (trimToMaxWords c (filterDeletionOnlyFiles
      (filterLargeFiles c (filterSourceCodeFiles (parseDiffIntoFiles raw))))) := by
  simp only [CompressDiff]
  rw [if_neg h0, if_neg (by simp [h1]), if_neg (by simp [h2]), if_neg (by simp [h3])]

/-- Well-formedness of all files surviving to each stage. -/
theorem wf_stage3 (c : DiffCompressor) (raw : String) :
    ∀ f ∈ filterDeletionOnlyFiles
      (filterLargeFiles c (filterSourceCodeFiles (parseDiffIntoFiles raw))), WFfile f :=
  fun f hf => parse_wf raw f (mem_stage1 (mem_stage2 (mem_stage3 hf)))

/-- C1: for every input string and positive budget pair, the total word count
summed over the per-file sections of `CompressDiff`'s output is at most
`maxWords` (the empty string being the valid result when even dropping all
files is what it takes), and whenever the filter chain has run strategy (b)
(that is, the fast path was not taken and the within-limits test still failed
after strategy (a)), no surviving per-file section's word count exceeds
`maxFileWords`. -/
theorem c1_budget_satisfaction (c : DiffCompressor) (rawDiff : String)
    (hT : 0 < c.maxWords) (hF : 0 < c.maxFileWords) :
    getTotalWords (parseDiffIntoFiles (CompressDiff c rawDiff)) ≤ c.maxWords ∧
    (¬ (getTotalWords (parseDiffIntoFiles rawDiff) ≤ c.maxWords ∧
        hasOversizedFiles c (parseDiffIntoFiles rawDiff) = false) →
      isWithinLimits c (filterSourceCodeFiles (parseDiffIntoFiles rawDiff)) = false →
      ∀ f ∈ parseDiffIntoFiles (CompressDiff c rawDiff),
        f.WordCount ≤ c.maxFileWords) := by
  by_cases h0 : getTotalWords (parseDiffIntoFiles rawDiff) ≤ c.maxWords ∧
      hasOversizedFiles c (parseDiffIntoFiles rawDiff) = false
  · rw [compressDiff_fast c rawDiff h0]
    exact ⟨h0.1, fun hcontra _ => absurd h0 hcontra⟩
  · by_cases h1 : isWithinLimits c (filterSourceCodeFiles (parseDiffIntoFiles rawDiff)) = true
    · rw [compressDiff_stage1 c rawDiff h0 h1]
      have hwf1 : ∀ f ∈ filterSourceCodeFiles (parseDiffIntoFiles rawDiff), WFfile f :=
        fun f hf => parse_wf rawDiff f (mem_stage1 hf)
      rw [parse_reconstruct hwf1]
      obtain ⟨ht, _⟩ := (isWithinLimits_spec c _).mp h1
      exact ⟨ht, fun _ h1f => absurd h1 (by simp [h1f])⟩
    · have h1f : isWithinLimits c (filterSourceCodeFiles (parseDiffIntoFiles rawDiff)) = false := by
        simpa using h1
      by_cases h2 : isWithinLimits c
          (filterLargeFiles c (filterSourceCodeFiles (parseDiffIntoFiles rawDiff))) = true
      · rw [compressDiff_stage2 c rawDiff h0 h1f h2]
        have hwf2 : ∀ f ∈ filterLargeFiles c (filterSourceCodeFiles (parseDiffIntoFiles rawDiff)),
            WFfile f := fun f hf => parse_wf rawDiff f (mem_stage1 (mem_stage2 hf))
        rw [parse_reconstruct hwf2]
        obtain ⟨ht, hp⟩ := (isWithinLimits_spec c _).mp h2
        exact ⟨ht, fun _ _ => hp⟩
      · have h2f : isWithinLimits c
            (filterLargeFiles c (filterSourceCodeFiles (parseDiffIntoFiles rawDiff))) = false := by
          simpa using h2
        by_cases h3 : isWithinLimits c (filterDeletionOnlyFiles
            (filterLargeFiles c (filterSourceCodeFiles (parseDiffIntoFiles rawDiff)))) = true
        · rw [compressDiff_stage3 c rawDiff h0 h1f h2f h3]
          rw [parse_reconstruct (wf_stage3 c rawDiff)]
          obtain ⟨ht, _⟩ := (isWithinLimits_spec c _).mp h3
          refine ⟨ht, fun _ _ f hf => ?_⟩
          exact filterLarge_bound c _ f (mem_stage3 hf)
        · have h3f : isWithinLimits c (filterDeletionOnlyFiles
              (filterLargeFiles c (filterSourceCodeFiles (parseDiffIntoFiles rawDiff)))) = false := by
            simpa using h3
          rw [compressDiff_stage4 c rawDiff h0 h1f h2f h3f]
          have hwf4 : ∀ f ∈ trimToMaxWords c (filterDeletionOnlyFiles
              (filterLargeFiles c (filterSourceCodeFiles (parseDiffIntoFiles rawDiff)))),
              WFfile f := fun f hf => wf_stage3 c rawDiff f (trim_mem c _ f hf)
          rw [parse_reconstruct hwf4]
          refine ⟨trim_total c _, fun _ _ f hf => ?_⟩
          exact filterLarge_bound c _ f (mem_stage3 (trim_mem c _ f hf))

theorem c1_budget_satisfaction_witness :
    getTotalWords (parseDiffIntoFiles (CompressDiff ⟨50000, 5000⟩ "")) ≤ 50000 ∧
    (¬ (getTotalWords (parseDiffIntoFiles "") ≤ 50000 ∧
        hasOversizedFiles ⟨50000, 5000⟩ (parseDiffIntoFiles "") = false) →
      isWithinLimits ⟨50000, 5000⟩ (filterSourceCodeFiles (parseDiffIntoFiles "")) = false →
      ∀ f ∈ parseDiffIntoFiles (CompressDiff ⟨50000, 5000⟩ ""),
        f.WordCount ≤ 5000) :=
  c1_budget_satisfaction ⟨50000, 5000⟩ "" (by decide) (by decide)

/-- C8: when the parsed sections of the input are within both budgets,
`CompressDiff` returns the input string itself (the fast path returns the
original argument, not a re-serialization); consequently a second application
of `CompressDiff` to any output that is already within both budgets returns
that output unchanged. -/
theorem c8_noop_fast_path (c : DiffCompressor) (rawDiff : String)
    (h1 : getTotalWords (parseDiffIntoFiles rawDiff) ≤ c.maxWords)
    (h2 : ∀ f ∈ parseDiffIntoFiles rawDiff, f.WordCount ≤ c.maxFileWords) :
    CompressDiff c rawDiff = rawDiff ∧
    ∀ raw2 : String,
      getTotalWords (parseDiffIntoFiles (CompressDiff c raw2)) ≤ c.maxWords →
      (∀ f ∈ parseDiffIntoFiles (CompressDiff c raw2), f.WordCount ≤ c.maxFileWords) →
      CompressDiff c (CompressDiff c raw2) = CompressDiff c raw2 := by
  have main : ∀ raw : String, getTotalWords (parseDiffIntoFiles raw) ≤ c.maxWords →
      (∀ f ∈ parseDiffIntoFiles raw, f.WordCount ≤ c.maxFileWords) →
      CompressDiff c raw = raw := by
    intro raw ha hb
    apply compressDiff_fast
    refine ⟨ha, ?_⟩
    rw [hasOversizedFiles, List.any_eq_false]
    intro f hf
    simpa using hb f hf
  exact ⟨main rawDiff h1 h2, fun raw2 ha hb => main _ ha hb⟩

theorem c8_noop_fast_path_witness :
    CompressDiff ⟨50000, 5000⟩ "" = "" ∧
    ∀ raw2 : String,
      getTotalWords (parseDiffIntoFiles (CompressDiff ⟨50000, 5000⟩ raw2)) ≤ 50000 →
      (∀ f ∈ parseDiffIntoFiles (CompressDiff ⟨50000, 5000⟩ raw2), f.WordCount ≤ 5000) →
      CompressDiff ⟨50000, 5000⟩ (CompressDiff ⟨50000, 5000⟩ raw2) =
        CompressDiff ⟨50000, 5000⟩ raw2 :=
  c8_noop_fast_path ⟨50000, 5000⟩ "" (by decide) (by decide)

/-- C3 is refuted on `rawDiffC3` with budgets (13, 100): the final trimming
strategy keeps `b.go` and `c.go` but emits them in ascending word-count order
`b.go, c.go`, which is not a subsequence of the input order
`a.go, c.go, b.go`. -/
theorem c3_counterexample :
    ¬ (getTotalWords (parseDiffIntoFiles rawDiffC3) ≤ 13 ∧
        hasOversizedFiles ⟨13, 100⟩ (parseDiffIntoFiles rawDiffC3) = false) ∧
    (parseDiffIntoFiles rawDiffC3).map DiffFile.Path = ["a.go", "c.go", "b.go"] ∧
    (parseDiffIntoFiles (CompressDiff ⟨13, 100⟩ rawDiffC3)).map DiffFile.Path =
      ["b.go", "c.go"] ∧
    ¬ ((parseDiffIntoFiles (CompressDiff ⟨13, 100⟩ rawDiffC3)).map DiffFile.Path).Sublist
        ((parseDiffIntoFiles rawDiffC3).map DiffFile.Path) := by
  refine ⟨by decide, by decide, by decide, by decide⟩

/-- C3 (amended): off the fast path, the output of `CompressDiff` is the
newline-joined concatenation of the surviving sections (empty when none
survive, via `reconstructDiff`); when one of strategies (a)-(c) decides the
result, the surviving sections keep their original input order (they form a
sublist of the parsed input), but when the final size-trimming strategy (d)
runs, the survivors are files of the previous stage emitted in nondecreasing
word-count order, which need not be a subsequence of the input order. -/
theorem c3_amended (c : DiffCompressor) (rawDiff : String)
    (fs0 fs1 fs2 fs3 : List DiffFile)
    (hfs0 : fs0 = parseDiffIntoFiles rawDiff)
    (hfs1 : fs1 = filterSourceCodeFiles fs0)
    (hfs2 : fs2 = filterLargeFiles c fs1)
    (hfs3 : fs3 = filterDeletionOnlyFiles fs2)
    (h0 : ¬ (getTotalWords fs0 ≤ c.maxWords ∧ hasOversizedFiles c fs0 = false)) :
    (isWithinLimits c fs1 = true →
      CompressDiff c rawDiff = reconstructDiff fs1 ∧ fs1.Sublist fs0) ∧
    (isWithinLimits c fs1 = false → isWithinLimits c fs2 = true →
      CompressDiff c rawDiff = reconstructDiff fs2 ∧ fs2.Sublist fs0) ∧
    (isWithinLimits c fs1 = false → isWithinLimits c fs2 = false →
      isWithinLimits c fs3 = true →
      CompressDiff c rawDiff = reconstructDiff fs3 ∧ fs3.Sublist fs0) ∧
    (isWithinLimits c fs1 = false → isWithinLimits c fs2 = false →
      isWithinLimits c fs3 = false →
      CompressDiff c rawDiff = reconstructDiff (trimToMaxWords c fs3) ∧
      (∀ f ∈ trimToMaxWords c fs3, f ∈ fs3) ∧
      ((trimToMaxWords c fs3).map DiffFile.WordCount).Pairwise (· ≤ ·)) := by
  subst hfs3 hfs2 hfs1 hfs0
  refine ⟨fun h1 => ?_, fun h1 h2 => ?_, fun h1 h2 h3 => ?_, fun h1 h2 h3 => ?_⟩
  · exact ⟨compressDiff_stage1 c rawDiff h0 h1, List.filter_sublist _⟩
  · exact ⟨compressDiff_stage2 c rawDiff h0 h1 h2,
      ((List.filter_sublist _).trans (List.filter_sublist _))⟩
  · exact ⟨compressDiff_stage3 c rawDiff h0 h1 h2 h3,
      (((List.filter_sublist _).trans (List.filter_sublist _)).trans
        (List.filter_sublist _))⟩
  · have hnt : ¬ getTotalWords (filterDeletionOnlyFiles (filterLargeFiles c
        (filterSourceCodeFiles (parseDiffIntoFiles rawDiff)))) ≤ c.maxWords := by
      intro hle
      have hwithin := (isWithinLimits_spec c _).mpr
        ⟨hle, fun f hf => filterLarge_bound c _ f (mem_stage3 hf)⟩
      rw [h3] at hwithin
      exact absurd hwithin (by simp)
    exact ⟨compressDiff_stage4 c rawDiff h0 h1 h2 h3,
      trim_mem c _, trim_pairwise c _ hnt⟩

theorem c3_amended_witness :
    (isWithinLimits ⟨13, 100⟩ (filterSourceCodeFiles (parseDiffIntoFiles rawDiffC3)) = true →
      CompressDiff ⟨13, 100⟩ rawDiffC3 =
        reconstructDiff (filterSourceCodeFiles (parseDiffIntoFiles rawDiffC3)) ∧
      (filterSourceCodeFiles (parseDiffIntoFiles rawDiffC3)).Sublist
        (parseDiffIntoFiles rawDiffC3)) ∧
    (isWithinLimits ⟨13, 100⟩ (filterSourceCodeFiles (parseDiffIntoFiles rawDiffC3)) = false →
      isWithinLimits ⟨13, 100⟩ (filterLargeFiles ⟨13, 100⟩
        (filterSourceCodeFiles (parseDiffIntoFiles rawDiffC3))) = true →
      CompressDiff ⟨13, 100⟩ rawDiffC3 =
        reconstructDiff (filterLargeFiles ⟨13, 100⟩
          (filterSourceCodeFiles (parseDiffIntoFiles rawDiffC3))) ∧
      (filterLargeFiles ⟨13, 100⟩
        (filterSourceCodeFiles (parseDiffIntoFiles rawDiffC3))).Sublist
        (parseDiffIntoFiles rawDiffC3)) ∧
    (isWithinLimits ⟨13, 100⟩ (filterSourceCodeFiles (parseDiffIntoFiles rawDiffC3)) = false →
      isWithinLimits ⟨13, 100⟩ (filterLargeFiles ⟨13, 100⟩
        (filterSourceCodeFiles (parseDiffIntoFiles rawDiffC3))) = false →
      isWithinLimits ⟨13, 100⟩ (filterDeletionOnlyFiles (filterLargeFiles ⟨13, 100⟩
        (filterSourceCodeFiles (parseDiffIntoFiles rawDiffC3)))) = true →
      CompressDiff ⟨13, 100⟩ rawDiffC3 =
        reconstructDiff (filterDeletionOnlyFiles (filterLargeFiles ⟨13, 100⟩
          (filterSourceCodeFiles (parseDiffIntoFiles rawDiffC3)))) ∧
      (filterDeletionOnlyFiles (filterLargeFiles ⟨13, 100⟩
        (filterSourceCodeFiles (parseDiffIntoFiles rawDiffC3)))).Sublist
        (parseDiffIntoFiles rawDiffC3)) ∧
    (isWithinLimits ⟨13, 100⟩ (filterSourceCodeFiles (parseDiffIntoFiles rawDiffC3)) = false →
      isWithinLimits ⟨13, 100⟩ (filterLargeFiles ⟨13, 100⟩
        (filterSourceCodeFiles (parseDiffIntoFiles rawDiffC3))) = false →
      isWithinLimits ⟨13, 100⟩ (filterDeletionOnlyFiles (filterLargeFiles ⟨13, 100⟩
        (filterSourceCodeFiles (parseDiffIntoFiles rawDiffC3)))) = false →
      CompressDiff ⟨13, 100⟩ rawDiffC3 =
        reconstructDiff (trimToMaxWords ⟨13, 100⟩ (filterDeletionOnlyFiles
          (filterLargeFiles ⟨13, 100⟩
            (filterSourceCodeFiles (parseDiffIntoFiles rawDiffC3))))) ∧
      (∀ f ∈ trimToMaxWords ⟨13, 100⟩ (filterDeletionOnlyFiles (filterLargeFiles ⟨13, 100⟩
          (filterSourceCodeFiles (parseDiffIntoFiles rawDiffC3)))),
        f ∈ filterDeletionOnlyFiles (filterLargeFiles ⟨13, 100⟩
          (filterSourceCodeFiles (parseDiffIntoFiles rawDiffC3)))) ∧
      ((trimToMaxWords ⟨13, 100⟩ (filterDeletionOnlyFiles (filterLargeFiles ⟨13, 100⟩
          (filterSourceCodeFiles (parseDiffIntoFiles rawDiffC3))))).map
        DiffFile.WordCount).Pairwise (· ≤ ·)) :=
  c3_amended ⟨13, 100⟩ rawDiffC3 _ _ _ _ rfl rfl rfl rfl (by decide)

theorem nonPatchEq_refl (a : CommitFile) : nonPatchEq a a :=
  ⟨rfl, rfl, rfl, rfl, rfl, rfl, rfl, rfl, rfl, rfl⟩

theorem nonPatchEq_trans {a b c : CommitFile} (h1 : nonPatchEq a b)
    (h2 : nonPatchEq b c) : nonPatchEq a c := by
  obtain ⟨x1, x2, x3, x4, x5, x6, x7, x8, x9, x10⟩ := h1
  obtain ⟨y1, y2, y3, y4, y5, y6, y7, y8, y9, y10⟩ := h2
  exact ⟨x1.trans y1, x2.trans y2, x3.trans y3, x4.trans y4, x5.trans y5,
    x6.trans y6, x7.trans y7, x8.trans y8, x9.trans y9, x10.trans y10⟩

theorem redactRel_refl (l : List CommitFile) : RedactRel l l :=
  ⟨rfl, fun i h1 h2 => ⟨nonPatchEq_refl _, fun hne => absurd rfl hne⟩⟩

theorem redactRel_map {orig cur : List CommitFile} (h : RedactRel orig cur)
    (f : CommitFile → CommitFile)
    (hf : ∀ x, f x = x ∨ (nonPatchEq x (f x) ∧ IsMarkerPatch (f x).Patch)) :
    RedactRel orig (cur.map f) := by
  obtain ⟨hlen, hget⟩ := h
  refine ⟨by rw [List.length_map, hlen], fun i h1 h2 => ?_⟩
  have h2' : i < cur.length := by
    rw [List.length_map] at h2; exact h2
  have hmap : (cur.map f).get ⟨i, h2⟩ = f (cur.get ⟨i, h2'⟩) := by
    simp [List.get_eq_getElem]
  obtain ⟨hnp, hpm⟩ := hget i h1 h2'
  rcases hf (cur.get ⟨i, h2'⟩) with heq | ⟨hnp2, hm2⟩
  · rw [hmap, heq]
    exact ⟨hnp, hpm⟩
  · refine ⟨by rw [hmap]; exact nonPatchEq_trans hnp hnp2, fun _ => ?_⟩
    rw [hmap]
    exact hm2

theorem redactRel_modify {orig cur : List CommitFile} (h : RedactRel orig cur)
    (idx : Nat) :
    RedactRel orig (List.modify
      (fun file => { file with Patch := some markerWordLimit }) idx cur) := by
  obtain ⟨hlen, hget⟩ := h
  refine ⟨by rw [List.length_modify, hlen], fun i h1 h2 => ?_⟩
  have h2' : i < cur.length := by
    rw [List.length_modify] at h2; exact h2
  have hmod : (List.modify (fun file => { file with Patch := some markerWordLimit })
      idx cur).get ⟨i, h2⟩ =
      if idx = i then { cur.get ⟨i, h2'⟩ with Patch := some markerWordLimit }
      else cur.get ⟨i, h2'⟩ := by
    simp only [List.get_eq_getElem, List.getElem_modify]
  obtain ⟨hnp, hpm⟩ := hget i h1 h2'
  by_cases hidx : idx = i
  · rw [hmod, if_pos hidx]
    refine ⟨?_, fun _ => Or.inr (Or.inr (Or.inr rfl))⟩
    refine nonPatchEq_trans hnp ?_
    exact ⟨rfl, rfl, rfl, rfl, rfl, rfl, rfl, rfl, rfl, rfl⟩
  · rw [hmod, if_neg hidx]
    exact ⟨hnp, hpm⟩

theorem redactRel_fold (c : FileListCompressor) {orig : List CommitFile} :
    ∀ (l : List (Nat × Nat × Int)) (fs : List CommitFile) (t : Nat),
      RedactRel orig fs →
      RedactRel orig ((l.foldl
        (fun acc stat =>
          if acc.2 + stat.2.1 ≤ c.maxTotalWords then (acc.1, acc.2 + stat.2.1)
          else (List.modify (fun file => { file with Patch := some markerWordLimit })
            stat.1 acc.1, acc.2))
        (fs, t)).1) := by
  intro l
  induction l with
  | nil => intro fs t h; exact h
  | cons stat l ih =>
    intro fs t h
    simp only [List.foldl_cons]
    by_cases hfit : t + stat.2.1 ≤ c.maxTotalWords
    · rw [if_pos hfit]
      exact ih fs (t + stat.2.1) h
    · rw [if_neg hfit]
      exact ih _ t (redactRel_modify h stat.1)

theorem redactRel_nonSource {orig cur : List CommitFile} (h : RedactRel orig cur) :
    RedactRel orig (removePatchFromNonSourceFiles cur) := by
  rw [removePatchFromNonSourceFiles]
  refine redactRel_map h _ (fun x => ?_)
  cases hn : x.Filename with
  | none => exact Or.inl (by simp only [hn])
  | some name =>
    by_cases hs : flIsSourceCodeFile name
    · exact Or.inl (by simp only [hn, hs, Bool.not_true, Bool.false_eq_true, if_false])
    · have hs' : flIsSourceCodeFile name = false := by simpa using hs
      refine Or.inr ⟨?_, ?_⟩
      · simp only [hn, hs', Bool.not_false, if_true]
        exact ⟨rfl, hn, rfl, rfl, rfl, rfl, rfl, rfl, rfl, rfl⟩
      · simp only [hn, hs', Bool.not_false, if_true]
        exact Or.inl rfl

theorem redactRel_large {c : FileListCompressor} {orig cur : List CommitFile}
    (h : RedactRel orig cur) :
    RedactRel orig (removePatchFromLargeFiles c cur) := by
  rw [removePatchFromLargeFiles]
  refine redactRel_map h _ (fun x => ?_)
  cases hp : x.Patch with
  | none => exact Or.inl (by simp only [hp])
  | some p =>
    by_cases hw : c.maxFileWords < countWordsStr p
    · refine Or.inr ⟨?_, ?_⟩
      · simp only [hp, hw, if_true]
        exact ⟨rfl, rfl, rfl, rfl, rfl, rfl, rfl, rfl, rfl, rfl⟩
      · simp only [hp, hw, if_true]
        exact Or.inr (Or.inl rfl)
    · exact Or.inl (by simp only [hp, hw, if_false])

theorem redactRel_delOnly {orig cur : List CommitFile} (h : RedactRel orig cur) :
    RedactRel orig (removePatchFromDeletionOnlyFiles cur) := by
  rw [removePatchFromDeletionOnlyFiles]
  refine redactRel_map h _ (fun x => ?_)
  cases hp : x.Patch with
  | none => exact Or.inl (by simp only [hp])
  | some p =>
    by_cases hd : isDeletionOnlyFile x
    · refine Or.inr ⟨?_, ?_⟩
      · simp only [hp, hd, if_true]
        exact ⟨rfl, rfl, rfl, rfl, rfl, rfl, rfl, rfl, rfl, rfl⟩
      · simp only [hp, hd, if_true]
        exact Or.inr (Or.inr (Or.inl rfl))
    · have hd' : isDeletionOnlyFile x = false := by simpa using hd
      exact Or.inl (by simp only [hp, hd', Bool.false_eq_true, if_false])

theorem compressFileList_redactRel (c : FileListCompressor)
    (files : List CommitFile) : RedactRel files (CompressFileList c files) := by
  rw [CompressFileList]
  by_cases h0 : calculateTotalWords files ≤ c.maxTotalWords
  · rw [if_pos h0]
    exact redactRel_refl files
  · rw [if_neg h0]
    have r1 : RedactRel files (removePatchFromNonSourceFiles files) :=
      redactRel_nonSource (redactRel_refl files)
    by_cases h1 : calculateTotalWords (removePatchFromNonSourceFiles files) ≤ c.maxTotalWords
    · rw [if_pos h1]
      exact r1
    · rw [if_neg h1]
      have r2 : RedactRel files
          (removePatchFromLargeFiles c (removePatchFromNonSourceFiles files)) :=
        redactRel_large r1
      by_cases h2 : calculateTotalWords
          (removePatchFromLargeFiles c (removePatchFromNonSourceFiles files)) ≤ c.maxTotalWords
      · rw [if_pos h2]
        exact r2
      · rw [if_neg h2]
        have r3 : RedactRel files (removePatchFromDeletionOnlyFiles
            (removePatchFromLargeFiles c (removePatchFromNonSourceFiles files))) :=
          redactRel_delOnly r2
        by_cases h3 : calculateTotalWords (removePatchFromDeletionOnlyFiles
            (removePatchFromLargeFiles c (removePatchFromNonSourceFiles files)))
            ≤ c.maxTotalWords
        · rw [if_pos h3]
          exact r3
        · rw [if_neg h3]
          exact redactRel_fold c _ _ 0 r3

/-- C2: `CompressFileList` returns a list of the same length and order where
each record agrees with the corresponding input record on every field other
than `patch`, and every `patch` value that differs from the input is,
verbatim, one of the four fixed marker strings. -/
theorem c2_redaction_invariant (c : FileListCompressor) (files : List CommitFile)
    (hT : 0 < c.maxTotalWords) (hF : 0 < c.maxFileWords) :
    (CompressFileList c files).length = files.length ∧
    ∀ i (h1 : i < files.length) (h2 : i < (CompressFileList c files).length),
      nonPatchEq (files.get ⟨i, h1⟩) ((CompressFileList c files).get ⟨i, h2⟩) ∧
      (((CompressFileList c files).get ⟨i, h2⟩).Patch ≠ (files.get ⟨i, h1⟩).Patch →
        IsMarkerPatch ((CompressFileList c files).get ⟨i, h2⟩).Patch) :=
  compressFileList_redactRel c files

theorem c2_redaction_invariant_witness :
    (CompressFileList ⟨50000, 5000⟩ [cfPngSix]).length = [cfPngSix].length ∧
    ∀ i (h1 : i < [cfPngSix].length)
      (h2 : i < (CompressFileList ⟨50000, 5000⟩ [cfPngSix]).length),
      nonPatchEq ([cfPngSix].get ⟨i, h1⟩)
        ((CompressFileList ⟨50000, 5000⟩ [cfPngSix]).get ⟨i, h2⟩) ∧
      (((CompressFileList ⟨50000, 5000⟩ [cfPngSix]).get ⟨i, h2⟩).Patch ≠
          ([cfPngSix].get ⟨i, h1⟩).Patch →
        IsMarkerPatch ((CompressFileList ⟨50000, 5000⟩ [cfPngSix]).get ⟨i, h2⟩).Patch) :=
  c2_redaction_invariant ⟨50000, 5000⟩ [cfPngSix] (by decide) (by decide)

theorem foldIdx_acc (c : FileListCompressor) :
    ∀ (l : List (Nat × Nat × Int)) (t : Nat) (acc : List Nat),
      (l.foldl
        (fun acc stat =>
          if acc.1 + stat.2.1 ≤ c.maxTotalWords then (acc.1 + stat.2.1, acc.2)
          else (acc.1, acc.2 ++ [stat.1]))
        (t, acc)).2 =
      acc ++ (l.foldl
        (fun acc stat =>
          if acc.1 + stat.2.1 ≤ c.maxTotalWords then (acc.1 + stat.2.1, acc.2)
          else (acc.1, acc.2 ++ [stat.1]))
        (t, [])).2 := by
  intro l
  induction l with
  | nil => intro t acc; simp
  | cons stat l ih =>
    intro t acc
    simp only [List.foldl_cons]
    by_cases hfit : t + stat.2.1 ≤ c.maxTotalWords
    · rw [if_pos hfit, if_pos hfit]
      exact ih (t + stat.2.1) acc
    · rw [if_neg hfit, if_neg hfit]
      simp only [List.nil_append]
      rw [ih t (acc ++ [stat.1]), ih t [stat.1], List.append_assoc]

theorem fold_characterize (c : FileListCompressor) :
    ∀ (l : List (Nat × Nat × Int)) (fs : List CommitFile) (t : Nat),
      ((l.foldl
        (fun acc stat =>
          if acc.2 + stat.2.1 ≤ c.maxTotalWords then (acc.1, acc.2 + stat.2.1)
          else (List.modify (fun file => { file with Patch := some markerWordLimit })
            stat.1 acc.1, acc.2))
        (fs, t)).1).length = fs.length ∧
      ∀ i : Nat,
        ((l.foldl
          (fun acc stat =>
            if acc.2 + stat.2.1 ≤ c.maxTotalWords then (acc.1, acc.2 + stat.2.1)
            else (List.modify (fun file => { file with Patch := some markerWordLimit })
              stat.1 acc.1, acc.2))
          (fs, t)).1)[i]? =
          (if i ∈ (l.foldl
            (fun acc stat =>
              if acc.1 + stat.2.1 ≤ c.maxTotalWords then (acc.1 + stat.2.1, acc.2)
              else (acc.1, acc.2 ++ [stat.1]))
            (t, [])).2
          then fs[i]?.map (fun x => { x with Patch := some markerWordLimit })
          else fs[i]?) := by
  intro l
  induction l with
  | nil =>
    intro fs t
    refine ⟨rfl, fun i => ?_⟩
    simp
  | cons stat l ih =>
    intro fs t
    simp only [List.foldl_cons]
    by_cases hfit : t + stat.2.1 ≤ c.maxTotalWords
    · simp only [if_pos hfit]
      exact ih fs (t + stat.2.1)
    · simp only [if_neg hfit]
      obtain ⟨ihlen, ihget⟩ := ih (List.modify
        (fun file => { file with Patch := some markerWordLimit }) stat.1 fs) t
      refine ⟨by rw [ihlen, List.length_modify], fun i => ?_⟩
      rw [ihget i]
      simp only [List.nil_append, foldIdx_acc c l t [stat.1]]
      by_cases hidx : stat.1 = i
      · subst hidx
        have hmem : stat.1 ∈ [stat.1] ++ (l.foldl
            (fun acc stat =>
              if acc.1 + stat.2.1 ≤ c.maxTotalWords then (acc.1 + stat.2.1, acc.2)
              else (acc.1, acc.2 ++ [stat.1]))
            (t, [])).2 := by simp
        rw [if_pos hmem, List.getElem?_modify_eq]
        by_cases hm2 : stat.1 ∈ (l.foldl
            (fun acc stat =>
              if acc.1 + stat.2.1 ≤ c.maxTotalWords then (acc.1 + stat.2.1, acc.2)
              else (acc.1, acc.2 ++ [stat.1]))
            (t, [])).2
        · rw [if_pos hm2]
          cases fs[stat.1]? with
          | none => rfl
          | some x => rfl
        · rw [if_neg hm2]
          rfl
      · have hne := List.getElem?_modify_ne
          (fun file => { file with Patch := some markerWordLimit }) fs hidx
        rw [hne]
        have hiff : i ∈ [stat.1] ++ (l.foldl
            (fun acc stat =>
              if acc.1 + stat.2.1 ≤ c.maxTotalWords then (acc.1 + stat.2.1, acc.2)
              else (acc.1, acc.2 ++ [stat.1]))
            (t, [])).2 ↔ i ∈ (l.foldl
            (fun acc stat =>
              if acc.1 + stat.2.1 ≤ c.maxTotalWords then (acc.1 + stat.2.1, acc.2)
              else (acc.1, acc.2 ++ [stat.1]))
            (t, [])).2 := by
          simp only [List.singleton_append, List.mem_cons]
          constructor
          · rintro (h | h)
            · exact absurd h.symm hidx
            · exact h
          · exact Or.inr
        by_cases hm2 : i ∈ (l.foldl
            (fun acc stat =>
              if acc.1 + stat.2.1 ≤ c.maxTotalWords then (acc.1 + stat.2.1, acc.2)
              else (acc.1, acc.2 ++ [stat.1]))
            (t, [])).2
        · rw [if_pos (hiff.mpr hm2), if_pos hm2]
        · rw [if_neg (fun hcon => hm2 (hiff.mp hcon)), if_neg hm2]

theorem mem_foldIdx (c : FileListCompressor) :
    ∀ (l : List (Nat × Nat × Int)) (t : Nat) (i : Nat),
      i ∈ (l.foldl
        (fun acc stat =>
          if acc.1 + stat.2.1 ≤ c.maxTotalWords then (acc.1 + stat.2.1, acc.2)
          else (acc.1, acc.2 ++ [stat.1]))
        (t, [])).2 → ∃ w s, (i, w, s) ∈ l := by
  intro l
  induction l with
  | nil => intro t i h; simp at h
  | cons stat l ih =>
    intro t i h
    simp only [List.foldl_cons] at h
    by_cases hfit : t + stat.2.1 ≤ c.maxTotalWords
    · rw [if_pos hfit] at h
      obtain ⟨w, s, hm⟩ := ih (t + stat.2.1) i h
      exact ⟨w, s, List.mem_cons_of_mem _ hm⟩
    · rw [if_neg hfit] at h
      simp only [List.nil_append] at h
      rw [foldIdx_acc c l t [stat.1]] at h
      rcases List.mem_append.mp h with h1 | h2
      · rw [List.mem_singleton] at h1
        subst h1
        exact ⟨stat.2.1, stat.2.2, by simp⟩
      · obtain ⟨w, s, hm⟩ := ih t i h2
        exact ⟨w, s, List.mem_cons_of_mem _ hm⟩

theorem redactedIdxs_domain (c : FileListCompressor) (files : List CommitFile) :
    ∀ i ∈ flRedactedIdxs c files, ∃ h : i < files.length,
      ((files.get ⟨i, h⟩).Patch).isSome = true := by
  intro i hi
  rw [flRedactedIdxs] at hi
  obtain ⟨w, s, hmem⟩ := mem_foldIdx c _ 0 i hi
  have hstats : (i, w, s) ∈ flStats files :=
    (List.Perm.mem_iff (List.perm_insertionSort flRank (flStats files))).mp hmem
  rw [flStats] at hstats
  obtain ⟨pair, hpair, heq⟩ := List.mem_filterMap.mp hstats
  cases hp : pair.2.Patch with
  | none => rw [hp] at heq; simp at heq
  | some p =>
    rw [hp] at heq
    have hfst : pair.1 = i := by
      have := Option.some.inj heq
      exact congrArg Prod.fst this
    have henum := hpair
    rw [List.mem_enum_iff_getElem?] at henum
    rw [hfst] at henum
    obtain ⟨hlt, hv⟩ := List.getElem?_eq_some_iff.mp henum
    refine ⟨hlt, ?_⟩
    have hget : files.get ⟨i, hlt⟩ = pair.2 := by
      simp only [List.get_eq_getElem]
      exact hv
    rw [hget, hp]
    rfl

/-- C6 is refuted at budgets (10, 100) on three source files ranked
A (score 1030, 6 words), B (score 1020, 5 words), C (score 1010, 3 words):
the walk keeps A, redacts B (6+5 > 10), and then still keeps the
lower-ranked C (6+3 ≤ 10), so it is not the case that every file after the
first over-budget one is redacted. -/
theorem c6_counterexample :
    10 < calculateTotalWords [cfGoA, cfGoB, cfGoC] ∧
    flStats [cfGoA, cfGoB, cfGoC] = [(0, 6, 1030), (1, 5, 1020), (2, 3, 1010)] ∧
    (CompressFileList ⟨10, 100⟩ [cfGoA, cfGoB, cfGoC]).map CommitFile.Patch =
      [some "+w w w w w\n+x", some markerWordLimit, some "+p q\n+r"] := by
  refine ⟨by decide, by decide, by decide⟩

/-- C6 (amended): in the final fallback the ranked rows are exactly the files
whose patch is non-nil after strategy 3 — including files already redacted by
earlier strategies, whose marker strings also count — ordered by importance
score (+1000 for source code plus the addition count, 0 when absent)
descending with ties preferring fewer words; walking that order, a row is kept
when the running kept-word total plus its words still fits `maxTotalWords`
(only then does the total advance) and is otherwise redacted with
`"[Patch removed: reached word limit]"`; a lower-ranked row after a redacted
one may still be kept. -/
theorem c6_amended (c : FileListCompressor) (files : List CommitFile) :
    (keepOnlyImportantFilePatches c files).length = files.length ∧
    (∀ i (h1 : i < files.length)
      (h2 : i < (keepOnlyImportantFilePatches c files).length),
      (keepOnlyImportantFilePatches c files).get ⟨i, h2⟩ =
        (if i ∈ flRedactedIdxs c files
         then { files.get ⟨i, h1⟩ with Patch := some markerWordLimit }
         else files.get ⟨i, h1⟩)) ∧
    (∀ i ∈ flRedactedIdxs c files, ∃ h : i < files.length,
      ((files.get ⟨i, h⟩).Patch).isSome = true) := by
  obtain ⟨hlen, hget⟩ := fold_characterize c
    (List.insertionSort flRank (flStats files)) files 0
  have hkeep : keepOnlyImportantFilePatches c files =
      ((List.insertionSort flRank (flStats files)).foldl
        (fun acc stat =>
          if acc.2 + stat.2.1 ≤ c.maxTotalWords then (acc.1, acc.2 + stat.2.1)
          else (List.modify (fun file => { file with Patch := some markerWordLimit })
            stat.1 acc.1, acc.2))
        (files, 0)).1 := rfl
  have hidxs : ((List.insertionSort flRank (flStats files)).foldl
      (fun acc stat =>
        if acc.1 + stat.2.1 ≤ c.maxTotalWords then (acc.1 + stat.2.1, acc.2)
        else (acc.1, acc.2 ++ [stat.1]))
      (0, [])).2 = flRedactedIdxs c files := rfl
  refine ⟨by rw [hkeep]; exact hlen, fun i h1 h2 => ?_, redactedIdxs_domain c files⟩
  have hq := hget i
  rw [← hkeep, hidxs] at hq
  have e1 : (keepOnlyImportantFilePatches c files)[i]? =
      some ((keepOnlyImportantFilePatches c files).get ⟨i, h2⟩) := by
    rw [List.get_eq_getElem]
    exact List.getElem?_eq_getElem h2
  have e2 : files[i]? = some (files.get ⟨i, h1⟩) := by
    rw [List.get_eq_getElem]
    exact List.getElem?_eq_getElem h1
  rw [e1, e2] at hq
  by_cases hm : i ∈ flRedactedIdxs c files
  · rw [if_pos hm] at hq ⊢
    exact Option.some.inj hq
  · rw [if_neg hm] at hq ⊢
    exact Option.some.inj hq

theorem c6_amended_witness :
    (keepOnlyImportantFilePatches ⟨10, 100⟩ [cfGoA, cfGoB, cfGoC]).length =
      [cfGoA, cfGoB, cfGoC].length ∧
    (∀ i (h1 : i < [cfGoA, cfGoB, cfGoC].length)
      (h2 : i < (keepOnlyImportantFilePatches ⟨10, 100⟩ [cfGoA, cfGoB, cfGoC]).length),
      (keepOnlyImportantFilePatches ⟨10, 100⟩ [cfGoA, cfGoB, cfGoC]).get ⟨i, h2⟩ =
        (if i ∈ flRedactedIdxs ⟨10, 100⟩ [cfGoA, cfGoB, cfGoC]
         then { [cfGoA, cfGoB, cfGoC].get ⟨i, h1⟩ with Patch := some markerWordLimit }
         else [cfGoA, cfGoB, cfGoC].get ⟨i, h1⟩)) ∧
    (∀ i ∈ flRedactedIdxs ⟨10, 100⟩ [cfGoA, cfGoB, cfGoC],
      ∃ h : i < [cfGoA, cfGoB, cfGoC].length,
      (([cfGoA, cfGoB, cfGoC].get ⟨i, h⟩).Patch).isSome = true) :=
  c6_amended ⟨10, 100⟩ [cfGoA, cfGoB, cfGoC]

/-- C10 is refuted at budgets (3, 10): the non-source record `b.png` (whose
patch was absent in the input) does get a patch inserted by strategy 1, but
the returned list carries the word-limit marker instead, because later
strategies overwrite the non-source marker. -/
theorem c10_counterexample :
    ¬ calculateTotalWords [cfGoSix, cfPngNil] ≤ 3 ∧
    cfPngNil.Filename = some "b.png" ∧
    flIsSourceCodeFile "b.png" = false ∧
    cfPngNil.Patch = none ∧
    (CompressFileList ⟨3, 10⟩ [cfGoSix, cfPngNil]).map CommitFile.Patch =
      [some markerWordLimit, some markerWordLimit] ∧
    markerWordLimit ≠ markerNonSource := by
  refine ⟨by decide, rfl, by decide, rfl, by decide, by decide⟩

/-- C10 (amended): when the input's total patch word count exceeds
`maxTotalWords`, strategy 1 replaces the patch of every record with a non-nil
filename classified as non-source by the non-source marker — including records
whose patch was absent, which thereby come back carrying a patch value the
caller never supplied; these markers survive to the returned list whenever
strategy 1 already brings the total within budget, but later strategies may
overwrite them otherwise. -/
theorem c10_amended (c : FileListCompressor) (files : List CommitFile)
    (h0 : ¬ calculateTotalWords files ≤ c.maxTotalWords)
    (h1 : calculateTotalWords (removePatchFromNonSourceFiles files) ≤ c.maxTotalWords) :
    CompressFileList c files = removePatchFromNonSourceFiles files ∧
    ∀ i (h : i < files.length) (name : String),
      (files.get ⟨i, h⟩).Filename = some name →
      flIsSourceCodeFile name = false →
      ∃ h2 : i < (CompressFileList c files).length,
        ((CompressFileList c files).get ⟨i, h2⟩).Patch = some markerNonSource := by
  have heq : CompressFileList c files = removePatchFromNonSourceFiles files := by
    rw [CompressFileList, if_neg h0, if_pos h1]
  refine ⟨heq, fun i h name hn hs => ?_⟩
  have hlen : (CompressFileList c files).length = files.length := by
    rw [heq, removePatchFromNonSourceFiles, List.length_map]
  refine ⟨by rw [hlen]; exact h, ?_⟩
  simp only [heq, removePatchFromNonSourceFiles, List.get_eq_getElem, List.getElem_map]
  simp only [List.get_eq_getElem] at hn
  simp only [hn, hs, Bool.not_false, if_true]

theorem c10_amended_witness :
    CompressFileList ⟨5, 10⟩ [cfPngSix] = removePatchFromNonSourceFiles [cfPngSix] ∧
    ∀ i (h : i < [cfPngSix].length) (name : String),
      ([cfPngSix].get ⟨i, h⟩).Filename = some name →
      flIsSourceCodeFile name = false →
      ∃ h2 : i < (CompressFileList ⟨5, 10⟩ [cfPngSix]).length,
        ((CompressFileList ⟨5, 10⟩ [cfPngSix]).get ⟨i, h2⟩).Patch =
          some markerNonSource :=
  c10_amended ⟨5, 10⟩ [cfPngSix] (by decide) (by decide)

theorem takeWhile_append_stop {p : Char → Bool} {A : List Char}
    (hA : ∀ a ∈ A, p a = true) {ch : Char} (hc : p ch = false) (B : List Char) :
    (A ++ ch :: B).takeWhile p = A := by
  induction A with
  | nil => simp [List.takeWhile_cons, hc]
  | cons a A ih =>
    have ha : p a = true := hA a (List.mem_cons_self _ _)
    rw [List.cons_append, List.takeWhile_cons, ha]
    simp only [if_true]
    rw [ih (fun x hx => hA x (List.mem_cons_of_mem _ hx))]

theorem takeWhile_all {p : Char → Bool} {A : List Char}
    (hA : ∀ a ∈ A, p a = true) : A.takeWhile p = A := by
  induction A with
  | nil => rfl
  | cons a A ih =>
    rw [List.takeWhile_cons, hA a (List.mem_cons_self _ _)]
    simp only [if_true]
    rw [ih (fun x hx => hA x (List.mem_cons_of_mem _ hx))]

theorem data_slash_append (d b : String) :
    (d ++ "/" ++ b).data = d.data ++ '/' :: b.data := by
  cases d with
  | mk dd =>
    cases b with
    | mk bd =>
      show (dd ++ ['/']) ++ bd = dd ++ '/' :: bd
      rw [List.append_assoc]
      rfl

theorem reverse_slash_append (d b : String) :
    (d ++ "/" ++ b).data.reverse = b.data.reverse ++ '/' :: d.data.reverse := by
  rw [data_slash_append, List.reverse_append, List.reverse_cons, List.append_assoc]
  rfl

theorem filepathBase_append (d b : String) (hb1 : b ≠ "") (hb2 : '/' ∉ b.data) :
    filepathBase (d ++ "/" ++ b) = b := by
  have hbd : b.data ≠ [] := by
    intro hcon
    apply hb1
    cases b with
    | mk bd => simp only at hcon; rw [hcon]
  obtain ⟨x, xs, hbr⟩ : ∃ x xs, b.data.reverse = x :: xs := by
    cases hr : b.data.reverse with
    | nil =>
      exfalso
      apply hbd
      have := congrArg List.reverse hr
      simpa using this
    | cons x xs => exact ⟨x, xs, rfl⟩
  have hx : ¬ x = '/' := by
    intro hcon
    apply hb2
    have : x ∈ b.data.reverse := by rw [hbr]; exact List.mem_cons_self _ _
    rw [List.mem_reverse] at this
    rw [← hcon]
    exact this
  have hxs : ∀ a ∈ xs, ¬ a = '/' := by
    intro a ha hcon
    apply hb2
    have : a ∈ b.data.reverse := by rw [hbr]; exact List.mem_cons_of_mem _ ha
    rw [List.mem_reverse] at this
    rw [← hcon]
    exact this
  have hne : (d ++ "/" ++ b) ≠ "" := by
    intro hcon
    have := congrArg String.data hcon
    rw [data_slash_append] at this
    simp at this
  rw [filepathBase, if_neg hne, reverse_slash_append, hbr]
  have hdrop : List.dropWhile (fun c => decide (c = '/'))
      ((x :: xs) ++ '/' :: d.data.reverse) =
      (x :: xs) ++ '/' :: d.data.reverse := by
    rw [List.cons_append, List.dropWhile_cons]
    simp [hx]
  simp only [List.cons_append] at hdrop ⊢
  rw [hdrop]
  simp only [List.cons_ne_nil, if_neg]
  have htake : List.takeWhile (fun c => !decide (c = '/'))
      (x :: (xs ++ '/' :: d.data.reverse)) = x :: xs := by
    have hstop : ((x :: xs) ++ '/' :: d.data.reverse).takeWhile
        (fun c => !decide (c = '/')) = x :: xs :=
      takeWhile_append_stop
        (fun a ha => by
          rcases List.mem_cons.mp ha with h | h
          · subst h; simp [hx]
          · simp [hxs a h])
        (by simp) d.data.reverse
    simpa using hstop
  rw [htake]
  have : (x :: xs).reverse = b.data := by
    rw [← hbr, List.reverse_reverse]
  rw [this]
  cases b with
  | mk bd => rfl

theorem filepathExt_append (d b : String) (hb1 : b ≠ "") (hb2 : '/' ∉ b.data) :
    filepathExt (d ++ "/" ++ b) = filepathExt b := by
  have hall : ∀ a ∈ b.data.reverse, (fun c => !decide (c = '/')) a = true := by
    intro a ha
    rw [List.mem_reverse] at ha
    have : ¬ a = '/' := fun hcon => hb2 (hcon ▸ ha)
    simp [this]
  have hseg : (d ++ "/" ++ b).data.reverse.takeWhile (fun c => !decide (c = '/')) =
      b.data.reverse := by
    rw [reverse_slash_append]
    exact takeWhile_append_stop hall (by simp) d.data.reverse
  have hsegb : b.data.reverse.takeWhile (fun c => !decide (c = '/')) =
      b.data.reverse := takeWhile_all hall
  rw [filepathExt, filepathExt, hseg, hsegb]

theorem dc_excluded_of_base (path : String)
    (hbase : dcExcludedFiles.contains (filepathBase path) = true) :
    dcIsSourceCodeFile path = false := by
  simp only [dcIsSourceCodeFile]
  rw [if_pos hbase]

theorem fl_congr (path bb : String) (hbase : filepathBase path = bb)
    (hext : filepathExt path = filepathExt bb) (hbb : filepathBase bb = bb) :
    flIsSourceCodeFile path = flIsSourceCodeFile bb := by
  simp only [flIsSourceCodeFile, hext, hbase, hbb]

theorem c5_case (b d : String) (hb1 : b ≠ "") (hb2 : '/' ∉ b.data)
    (hbb : filepathBase b = b)
    (hbmem : dcExcludedFiles.contains b = true) :
    dcIsSourceCodeFile (d ++ "/" ++ b) = false ∧
    flIsSourceCodeFile (d ++ "/" ++ b) = flIsSourceCodeFile b := by
  have hbase := filepathBase_append d b hb1 hb2
  have hext := filepathExt_append d b hb1 hb2
  constructor
  · exact dc_excluded_of_base _ (by rw [hbase]; exact hbmem)
  · exact fl_congr _ _ hbase hext hbb

/-- C5 is refuted at path "go.sum": its basename is the lock file `go.sum`,
yet the file-list compressor's classifier — one of the two classifiers the
program uses — returns true (its special-basename allow-list contains
`go.sum`), so the classification is not false for both classifiers. -/
theorem c5_counterexample :
    filepathBase "go.sum" = "go.sum" ∧ flIsSourceCodeFile "go.sum" = true := by
  refine ⟨rfl, by decide⟩

/-- C5 (amended): for every path whose basename is one of the eight lock
files, the diff compressor's classifier returns false regardless of extension;
the file-list compressor's classifier instead returns true for
`package-lock.json`, `yarn.lock`, `pnpm-lock.yaml` and `go.sum` and false only
for `Gemfile.lock`, `Cargo.lock`, `composer.lock` and `poetry.lock`. -/
theorem c5_amended (b : String) (hb : b ∈ dcExcludedFiles) (path : String)
    (hpath : path = b ∨ ∃ d, path = d ++ "/" ++ b) :
    dcIsSourceCodeFile path = false ∧
    ((b = "package-lock.json" ∨ b = "yarn.lock" ∨ b = "pnpm-lock.yaml" ∨
        b = "go.sum") → flIsSourceCodeFile path = true) ∧
    ((b = "Gemfile.lock" ∨ b = "Cargo.lock" ∨ b = "composer.lock" ∨
        b = "poetry.lock") → flIsSourceCodeFile path = false) := by
  have hb8 : b = "package-lock.json" ∨ b = "yarn.lock" ∨ b = "pnpm-lock.yaml" ∨
      b = "go.sum" ∨ b = "Gemfile.lock" ∨ b = "Cargo.lock" ∨
      b = "composer.lock" ∨ b = "poetry.lock" := by
    simpa [dcExcludedFiles] using hb
  rcases hb8 with rfl | rfl | rfl | rfl | rfl | rfl | rfl | rfl <;>
    rcases hpath with rfl | ⟨d, rfl⟩ <;>
    first
      | decide
      | (refine ⟨(c5_case _ d (by decide) (by decide) (by decide) (by decide)).1, ?_, ?_⟩ <;>
          rw [(c5_case _ d (by decide) (by decide) (by decide) (by decide)).2] <;>
          decide)

theorem c5_amended_witness :
    dcIsSourceCodeFile "vendor/go.sum" = false ∧
    (("go.sum" = "package-lock.json" ∨ "go.sum" = "yarn.lock" ∨
        "go.sum" = "pnpm-lock.yaml" ∨ "go.sum" = "go.sum") →
      flIsSourceCodeFile "vendor/go.sum" = true) ∧
    (("go.sum" = "Gemfile.lock" ∨ "go.sum" = "Cargo.lock" ∨
        "go.sum" = "composer.lock" ∨ "go.sum" = "poetry.lock") →
      flIsSourceCodeFile "vendor/go.sum" = false) :=
  c5_amended "go.sum" (by decide) "vendor/go.sum" (Or.inr ⟨"vendor", by decide⟩)

theorem parseRangePart_no_comma {part : String} {a b : Int}
    (hc : containsCh part ',' = false) (h : parseRangePart part = some (a, b)) :
    b = 1 := by
  rw [parseRangePart, hc] at h
  simp only [Bool.false_eq_true, if_false] at h
  cases hA : goAtoi part with
  | none => rw [hA] at h; simp at h
  | some s =>
    rw [hA] at h
    simp only [Option.some.injEq] at h
    exact (congrArg Prod.snd h).symm

theorem parseChunkHeader_spec {header : String} {os ol ns nl : Int}
    (hp : parseChunkHeader header = Except.ok (os, ol, ns, nl)) :
    parseRangePart (strDropN
      ((goFields (trimCutset header (fun c => c = '@' || c = ' '))).getD 0 "") 1) =
      some (os, ol) ∧
    parseRangePart (strDropN
      ((goFields (trimCutset header (fun c => c = '@' || c = ' '))).getD 1 "") 1) =
      some (ns, nl) := by
  simp only [parseChunkHeader] at hp
  by_cases h1 : (goFields (trimCutset header (fun c => c = '@' || c = ' '))).length < 2
  · rw [if_pos h1] at hp
    exact absurd hp (by simp)
  · rw [if_neg h1] at hp
    cases hsw : startsWithStr
        ((goFields (trimCutset header (fun c => c = '@' || c = ' '))).getD 0 "") "-" with
    | false =>
      rw [hsw] at hp
      simp at hp
    | true =>
      rw [hsw] at hp
      simp only [Bool.not_true, Bool.false_eq_true, if_false] at hp
      cases hpr : parseRangePart (strDropN
          ((goFields (trimCutset header (fun c => c = '@' || c = ' '))).getD 0 "") 1) with
      | none =>
        rw [hpr] at hp
        simp at hp
      | some pr =>
        obtain ⟨pa, pb⟩ := pr
        rw [hpr] at hp
        simp only [] at hp
        cases hsw2 : startsWithStr
            ((goFields (trimCutset header (fun c => c = '@' || c = ' '))).getD 1 "") "+" with
        | false =>
          rw [hsw2] at hp
          simp at hp
        | true =>
          rw [hsw2] at hp
          simp only [Bool.not_true, Bool.false_eq_true, if_false] at hp
          cases hpr2 : parseRangePart (strDropN
              ((goFields (trimCutset header (fun c => c = '@' || c = ' '))).getD 1 "") 1) with
          | none =>
            rw [hpr2] at hp
            simp at hp
          | some pr2 =>
            obtain ⟨qa, qb⟩ := pr2
            rw [hpr2] at hp
            simp only [Except.ok.injEq, Prod.mk.injEq] at hp
            obtain ⟨e1, e2, e3, e4⟩ := hp
            subst e1
            subst e2
            subst e3
            subst e4
            exact ⟨rfl, rfl⟩

/-- C7: while inside a hunk whose header set the counter (the header's
new-range start, both counts defaulting to 1 when the `,lines` part is
omitted): a `+` line is emitted as `"<num> +<rest>"` and increments the
counter; a `-` line is emitted as `"   -<rest>"` with the counter unchanged;
a space-prefixed line is emitted as `"<num>  <rest>"` and increments the
counter; an empty line is emitted unchanged and increments the counter. -/
theorem c7_annotator_steps (st : AnnState) (hst : st.inChunk = true) :
    (∀ (header : String) (os ol ns nl : Int),
      startsWithStr header "@@" = true →
      parseChunkHeader header = Except.ok (os, ol, ns, nl) →
      annotateLine st header = (⟨ns, true⟩, header) ∧
      (containsCh (strDropN
          ((goFields (trimCutset header (fun c => c = '@' || c = ' '))).getD 0 "") 1)
          ',' = false → ol = 1) ∧
      (containsCh (strDropN
          ((goFields (trimCutset header (fun c => c = '@' || c = ' '))).getD 1 "") 1)
          ',' = false → nl = 1)) ∧
    (annotateLine st "" = ({ st with num := st.num + 1 }, "")) ∧
    (∀ rest : List Char,
      annotateLine st (String.mk ('+' :: rest)) =
        ({ st with num := st.num + 1 }, intToStr st.num ++ " +" ++ String.mk rest)) ∧
    (∀ rest : List Char,
      annotateLine st (String.mk ('-' :: rest)) = (st, "   -" ++ String.mk rest)) ∧
    (∀ rest : List Char,
      annotateLine st (String.mk (' ' :: rest)) =
        ({ st with num := st.num + 1 }, intToStr st.num ++ "  " ++ String.mk rest)) := by
  obtain ⟨n, ic⟩ := st
  change ic = true at hst
  subst hst
  refine ⟨fun header os ol ns nl hh hp => ?_, rfl, fun rest => rfl, fun rest => rfl,
    fun rest => rfl⟩
  obtain ⟨hold, hnew⟩ := parseChunkHeader_spec hp
  refine ⟨?_, fun hc => parseRangePart_no_comma hc hold,
    fun hc => parseRangePart_no_comma hc hnew⟩
  rw [annotateLine, if_pos hh, hp]

theorem c7_annotator_steps_witness :
    (∀ (header : String) (os ol ns nl : Int),
      startsWithStr header "@@" = true →
      parseChunkHeader header = Except.ok (os, ol, ns, nl) →
      annotateLine ⟨5, true⟩ header = (⟨ns, true⟩, header) ∧
      (containsCh (strDropN
          ((goFields (trimCutset header (fun c => c = '@' || c = ' '))).getD 0 "") 1)
          ',' = false → ol = 1) ∧
      (containsCh (strDropN
          ((goFields (trimCutset header (fun c => c = '@' || c = ' '))).getD 1 "") 1)
          ',' = false → nl = 1)) ∧
    (annotateLine ⟨5, true⟩ "" = ({ num := 5 + 1, inChunk := true }, "")) ∧
    (∀ rest : List Char,
      annotateLine ⟨5, true⟩ (String.mk ('+' :: rest)) =
        ({ num := 5 + 1, inChunk := true }, intToStr 5 ++ " +" ++ String.mk rest)) ∧
    (∀ rest : List Char,
      annotateLine ⟨5, true⟩ (String.mk ('-' :: rest)) =
        (⟨5, true⟩, "   -" ++ String.mk rest)) ∧
    (∀ rest : List Char,
      annotateLine ⟨5, true⟩ (String.mk (' ' :: rest)) =
        ({ num := 5 + 1, inChunk := true }, intToStr 5 ++ "  " ++ String.mk rest)) :=
  c7_annotator_steps ⟨5, true⟩ rfl

theorem dropWhile_eq_nil_iff_all {p : Char → Bool} {l : List Char} :
    l.dropWhile p = [] ↔ ∀ c ∈ l, p c = true := by
  induction l with
  | nil => simp
  | cons a t ih =>
    rw [List.dropWhile_cons]
    by_cases ha : p a = true
    · simp only [ha, if_true, ih]
      constructor
      · intro hall c hc
        rcases List.mem_cons.mp hc with h | h
        · subst h; exact ha
        · exact hall c h
      · intro hall c hc
        exact hall c (List.mem_cons_of_mem _ hc)
    · simp only [ha, if_false]
      constructor
      · intro hcon
        exact absurd hcon (List.cons_ne_nil a t)
      · intro hall
        exact absurd (hall a (List.mem_cons_self _ _)) ha

theorem trimSpaceGo_eq_empty_iff {s : String} :
    trimSpaceGo s = "" ↔ ∀ c ∈ s.data, goIsSpace c = true := by
  rw [trimSpaceGo]
  constructor
  · intro h c hc
    have hdata : (((s.data.dropWhile goIsSpace).reverse.dropWhile goIsSpace).reverse) = [] := by
      have := congrArg String.data h
      exact this
    rw [List.reverse_eq_nil_iff] at hdata
    rw [dropWhile_eq_nil_iff_all] at hdata
    by_cases hdrop : c ∈ s.data.dropWhile goIsSpace
    · exact hdata c (by rw [List.mem_reverse]; exact hdrop)
    · have hsplit := List.takeWhile_append_dropWhile goIsSpace s.data
      rw [← hsplit] at hc
      rcases List.mem_append.mp hc with h1 | h2
      · exact List.mem_takeWhile_imp h1
      · exact absurd h2 hdrop
  · intro hall
    have h1 : s.data.dropWhile goIsSpace = [] :=
      dropWhile_eq_nil_iff_all.mpr hall
    rw [h1]
    rfl

theorem detect_ws (x : String) :
    ∀ c ∈ (detectBaseIndentation x).data, goIsSpace c = true := by
  rw [detectBaseIndentation]
  generalize splitLines x = L
  induction L with
  | nil => intro c hc; simp [detectBaseAux] at hc
  | cons l t ih =>
    intro c hc
    rw [detectBaseAux] at hc
    by_cases hl : trimSpaceGo l = ""
    · rw [if_pos hl] at hc
      exact ih c hc
    · rw [if_neg hl] at hc
      rw [getIndentation] at hc
      have := List.mem_takeWhile_imp hc
      rcases Bool.or_eq_true .. |>.mp this with h | h
      · rw [of_decide_eq_true h]
        rfl
      · rw [of_decide_eq_true h]
        rfl

theorem data_append (a b : String) : (a ++ b).data = a.data ++ b.data := rfl

theorem string_ext {a b : String} (h : a.data = b.data) : a = b := by
  cases a
  cases b
  simp only at h
  rw [h]

theorem splitLines_ne_nil (s : String) : splitLines s ≠ [] := by
  rw [splitLines]
  intro hcon
  rw [List.map_eq_nil_iff] at hcon
  exact splitCh_ne_nil '\n' s.data hcon

/-- C4 is refuted on the block `" a\n \n b"`: every line (including the
whitespace-only middle line) literally starts with the detected base
indentation `" "`, yet the round trip rewrites the middle line to the empty
line, so the result differs from the input. -/
theorem c4_counterexample :
    detectBaseIndentation " a\n \n b" = " " ∧
    (∀ l ∈ splitLines " a\n \n b",
      startsWithStr l (detectBaseIndentation " a\n \n b") = true) ∧
    applyBaseIndentation
      (removeBaseIndentation " a\n \n b" (detectBaseIndentation " a\n \n b"))
      (detectBaseIndentation " a\n \n b") ≠ " a\n \n b" := by
  refine ⟨rfl, by decide, by decide⟩

/-- C4 (amended): the round trip
`applyBaseIndentation (removeBaseIndentation x base) base` with
`base = detectBaseIndentation x` is the identity on every block whose lines
are each either empty or start with `base` while containing some
non-whitespace character; a whitespace-only non-empty line is instead
normalized to the empty line, even when it starts with `base`. -/
theorem c4_amended (x : String)
    (h : ∀ l ∈ splitLines x, l = "" ∨
      (startsWithStr l (detectBaseIndentation x) = true ∧ trimSpaceGo l ≠ "")) :
    applyBaseIndentation (removeBaseIndentation x (detectBaseIndentation x))
      (detectBaseIndentation x) = x := by
  rw [removeBaseIndentation, applyBaseIndentation]
  have hmapne : (splitLines x).map (fun line =>
      if trimSpaceGo line = "" then ""
      else trimPfx line (detectBaseIndentation x)) ≠ [] := by
    intro hcon
    rw [List.map_eq_nil_iff] at hcon
    exact splitLines_ne_nil x hcon
  have hmapnl : ∀ l ∈ (splitLines x).map (fun line =>
      if trimSpaceGo line = "" then ""
      else trimPfx line (detectBaseIndentation x)), '\n' ∉ l.data := by
    intro l hl
    obtain ⟨l0, hl0, rfl⟩ := List.mem_map.mp hl
    by_cases hws : trimSpaceGo l0 = ""
    · rw [if_pos hws]
      intro hcon
      simp at hcon
    · rw [if_neg hws]
      rw [trimPfx]
      by_cases hpre : (detectBaseIndentation x).data.isPrefixOf l0.data
      · rw [if_pos hpre]
        intro hcon
        exact mem_splitLines_no_newline hl0 (List.mem_of_mem_drop hcon)
      · rw [if_neg hpre]
        exact mem_splitLines_no_newline hl0
  rw [splitLines_joinLines hmapne hmapnl, List.map_map]
  have hid : (splitLines x).map ((fun line =>
      if trimSpaceGo line = "" then ""
      else detectBaseIndentation x ++ line) ∘ (fun line =>
      if trimSpaceGo line = "" then ""
      else trimPfx line (detectBaseIndentation x))) = splitLines x := by
    have hcongr : ∀ l ∈ splitLines x, ((fun line =>
        if trimSpaceGo line = "" then ""
        else detectBaseIndentation x ++ line) ∘ (fun line =>
        if trimSpaceGo line = "" then ""
        else trimPfx line (detectBaseIndentation x))) l = id l := ?_
    · rw [List.map_congr_left hcongr, List.map_id]
    intro l hl
    rcases h l hl with rfl | ⟨hpre, hws⟩
    · rfl
    · have hpre' : (detectBaseIndentation x).data.isPrefixOf l.data = true := hpre
      obtain ⟨t, ht⟩ := List.isPrefixOf_iff_prefix.mp hpre'
      have hdrop : l.data.drop (detectBaseIndentation x).data.length = t := by
        rw [← ht, List.drop_left]
      simp only [Function.comp_apply, id_eq, if_neg hws]
      rw [trimPfx, if_pos hpre', hdrop]
      have hnonws : ¬ ∀ c ∈ t, goIsSpace c = true := by
        intro hall
        apply hws
        rw [trimSpaceGo_eq_empty_iff]
        intro c hc
        rw [← ht] at hc
        rcases List.mem_append.mp hc with h1 | h2
        · exact detect_ws x c h1
        · exact hall c h2
      have hcond : ¬ trimSpaceGo (String.mk t) = "" := by
        intro hcon
        rw [trimSpaceGo_eq_empty_iff] at hcon
        exact hnonws hcon
      rw [if_neg hcond]
      apply string_ext
      rw [data_append]
      exact ht
  rw [hid, joinLines_splitLines]

theorem c4_amended_witness :
    applyBaseIndentation
      (removeBaseIndentation "\tfoo\n\n\tbar" (detectBaseIndentation "\tfoo\n\n\tbar"))
      (detectBaseIndentation "\tfoo\n\n\tbar") = "\tfoo\n\n\tbar" :=
  c4_amended "\tfoo\n\n\tbar" (by decide)

/-- C9: the suggestion-indentation reconciliation is a no-op success —
returning the body unchanged with no error — both when the body contains no
```suggestion fence at all and when the extracted, whitespace-trimmed
suggestion block has empty base indentation, regardless of the externally
supplied target indentation. -/
theorem c9_noop_success (body correctIndentation : String) :
    (strIndexOf body suggestionStart = none →
      adjustSuggestionIndentation correctIndentation body = Except.ok body) ∧
    (∀ sug, extractSuggestionBlock body = Except.ok sug →
      detectBaseIndentation (trimSpaceGo sug) = "" →
      adjustSuggestionIndentation correctIndentation body = Except.ok body) := by
  constructor
  · intro h
    have hex : extractSuggestionBlock body = Except.error "no suggestion block found" := by
      simp only [extractSuggestionBlock, h]
    simp only [adjustSuggestionIndentation, hex]
  · intro sug hsug hbase
    simp only [adjustSuggestionIndentation, hsug]
    by_cases hempty : trimSpaceGo sug = ""
    · rw [if_pos hempty]
    · rw [if_neg hempty, if_pos hbase]

theorem c9_noop_success_witness :
    (strIndexOf "hello world" suggestionStart = none →
      adjustSuggestionIndentation "\t" "hello world" = Except.ok "hello world") ∧
    (∀ sug, extractSuggestionBlock "hello world" = Except.ok sug →
      detectBaseIndentation (trimSpaceGo sug) = "" →
      adjustSuggestionIndentation "\t" "hello world" = Except.ok "hello world") :=
  c9_noop_success "hello world" "\t"

end Qoder

